import Mathlib

/-!
# Uncharted (Hable) tonemapping operator

A shallow embedding of `src/operators/uncharted.h`, in two readings of the
source's `float` arithmetic.

Finite `float` values are rationals.  A computed value is an `FVal`:
`some q` stands for the finite value `q`, and `none` for a computation in which
a value that is not finite occurred (the infinities and NaN that IEEE
arithmetic produces when a divisor is zero, or on overflow).  The operators
propagate `none`: the embedding does not follow the code past a value that is
not finite, so `none` says that such a value occurred, not what the code
returns after it.

* The exact reading (`fadd`, `fsub`, `fmul`, `fdiv`, `mapAux`, `map`, `graph`,
  `process`): no operation rounds.  A result `some q` is the one exact
  arithmetic gives when no divisor on the way is zero.  The statements about
  the structure of the code (which bytes are written and where, which formula
  in which order, which divisors are zero, the range after the clamp) are
  proved in this reading.
* The rounded reading (`radd`, `rsub`, `rmul`, `rdiv`, `mapAuxR`, `mapR`,
  `graphR`, `processR`): the same operations in the same order, each followed
  by a rounding operator `rnd`.  With `rnd = some` it is the exact reading
  (`mapAuxR_exact`, `mapR_exact`, `graphR_exact`, `processR_exact`); with
  `rnd = round32`, rounding to the nearest binary32 value with ties to even, it
  is the computation of the code.  The statements whose truth depends on
  rounding (the value at the white point, the order of the curve values, the
  progress sums, the value at black) are settled in this reading.

The library function `std::pow` (and the built-in `pow` of the shading
language) is a parameter `pw` of the definitions that call it; the theorems
state which of its properties they use (`PowFinite`, `PowRange`, `PowMono`,
`PowOne`, `PowZero`).  `powQ` is a stand-in with these properties, exact on
integer exponents and rounding the exponent up elsewhere, on which the
definitions can be evaluated; values computed through it with an exponent that
is not an integer are values of the stand-in, not of `std::pow`.

The helpers `clamp`, `Color3f` and `Image` are declared outside the file and
are modelled from the spec.
-/

namespace Uncharted

/-- A computed `float`: `some q` is finite, `none` is not (infinity or NaN). -/
abbrev FVal := Option ℚ

/-- The operator `a + b` on computed values. -/
def fadd (a b : FVal) : FVal :=
  a.bind fun x => b.bind fun y => some (x + y)

/-- The operator `a - b` on computed values. -/
def fsub (a b : FVal) : FVal :=
  a.bind fun x => b.bind fun y => some (x - y)

/-- The operator `a * b` on computed values. -/
def fmul (a b : FVal) : FVal :=
  a.bind fun x => b.bind fun y => some (x * y)

/-- The operator `a / b` on computed values: not finite when the divisor is zero.
The quotient by zero (an infinity or NaN in IEEE arithmetic) is not followed
further: what is computed from it is `none` too. -/
def fdiv (a b : FVal) : FVal :=
  a.bind fun x => b.bind fun y => if y = 0 then none else some (x / y)

/-- The call `std::pow(a, b)`, the library function being the parameter `pw`:
on finite arguments it gives a `float`, finite or not. -/
def fpow (pw : ℚ → ℚ → FVal) (a b : FVal) : FVal :=
  a.bind fun x => b.bind fun y => pw x y

/-- A rational stand-in for `std::pow`, used to evaluate the operator on
concrete inputs.  It is the exact power whenever the exponent is an integer,
whenever the base is `1`, and for base `0` with a positive exponent; it is not
finite for base `0` with a negative exponent.  Elsewhere the exponent is
rounded up to the next integer (`-⌊-y⌋`). -/
def powQ (x y : ℚ) : FVal :=
  if x = 0 ∧ y < 0 then none else some (x ^ (-⌊-y⌋))

/-- The eight parameter values of the operator (`parameters.at(..).value`). -/
structure Params where
  gamma : ℚ
  A : ℚ
  B : ℚ
  C : ℚ
  D : ℚ
  E : ℚ
  F : ℚ
  W : ℚ

/-- The parameter values set by the constructor `UnchartedOperator()`. -/
def defaultParams : Params :=
  { gamma := 22 / 10, A := 22 / 100, B := 3 / 10, C := 1 / 10, D := 2 / 10,
    E := 1 / 100, F := 3 / 10, W := 112 / 10 }

/-- `UnchartedOperator::mapAux`, in exact arithmetic; `mapAuxR` is the same
expression with each operation rounded. -/
def mapAux (x A B C D E F : ℚ) : FVal :=
  fsub (fdiv (some (x * (A * x + C * B) + D * E)) (some (x * (A * x + B) + D * F)))
    (fdiv (some E) (some F))

/-- `UnchartedOperator::map`, in exact arithmetic; `mapR` is the same sequence of
statements with each operation rounded. -/
def map (v exposure A B C D E F W : ℚ) : FVal :=
  let value : ℚ := exposure * v
  let exposureBias : ℚ := 2
  let value : FVal := mapAux (exposureBias * value) A B C D E F
  let whiteScale : FVal := fdiv (some 1) (mapAux W A B C D E F)
  let value : FVal := fmul value whiteScale
  value

/-- Modelled from the spec: the helper `clamp(value, min, max)`, whose
definition is not in this file; the spec has it clamp a value to
`[min, max]`.  A value that is not finite stays so. -/
def clamp (value : FVal) (lo hi : ℚ) : FVal :=
  value.map fun x => if x < lo then lo else if hi < x then hi else x

/-- `UnchartedOperator::graph`, in exact arithmetic; `graphR` is the same sequence
of statements with each operation rounded. -/
def graph (pw : ℚ → ℚ → FVal) (P : Params) (value : ℚ) : FVal :=
  let value : FVal := map value 1 P.A P.B P.C P.D P.E P.F P.W
  let value : FVal := clamp value 0 1
  let value : FVal := fpow pw value (fdiv (some 1) (some P.gamma))
  value

/-- Modelled from the spec: the class `Color3f`, declared outside this file: an
RGB triple, here with channels of type `α` (finite values in a stored image,
computed values in the body of `process`). -/
structure Color3f (α : Type) where
  r : α
  g : α
  b : α

/-- Modelled from the spec: the method `Color3f::clampedValue`, declared
outside this file; the spec has it clamp each channel to `[0, 1]`. -/
def Color3f.clampedValue (c : Color3f FVal) : Color3f FVal :=
  { r := clamp c.r 0 1, g := clamp c.g 0 1, b := clamp c.b 0 1 }

/-- Modelled from the spec: the method `Color3f::gammaCorrect`, declared
outside this file; the spec has it replace each channel by
`channel ^ (1 / gamma)`. -/
def Color3f.gammaCorrect (pw : ℚ → ℚ → FVal) (c : Color3f FVal) (gamma : ℚ) :
    Color3f FVal :=
  { r := fpow pw c.r (fdiv (some 1) (some gamma)),
    g := fpow pw c.g (fdiv (some 1) (some gamma)),
    b := fpow pw c.b (fdiv (some 1) (some gamma)) }

/-- Modelled from the spec: the class `Image`, declared outside this file: a
grid of `size_x` columns and `size_y` rows of finite linear RGB triples, read
by `ref row col`. -/
structure Image where
  size_x : ℕ
  size_y : ℕ
  ref : ℕ → ℕ → Color3f ℚ

/-- Truncation of a finite value toward zero. -/
def truncZ (x : ℚ) : ℤ :=
  if 0 ≤ x then ⌊x⌋ else -⌊-x⌋

/-- The conversion `(uint8_t) x`: truncation toward zero, kept to 8 bits.  The
byte is unspecified (`none`) when `x` is not finite. -/
def castUInt8 (x : FVal) : Option ℕ :=
  x.map fun q => (truncZ q % 256).toNat

/-- The state of a call of `process`.  `mem` is the output buffer, indexed from
the address `dst` has on entry, `dst` the offset of the output cursor from
that address, `progress` the value of `*progress`.  The two lists record the
stores of the call in order: `writes` the offsets of the bytes written,
`progressLog` the values given to `*progress`. -/
structure ProcState where
  mem : ℕ → Option ℕ
  dst : ℕ
  progress : FVal
  writes : List ℕ
  progressLog : List FVal

/-- The store `dst[off] = byte`. -/
def ProcState.store (s : ProcState) (off : ℕ) (byte : Option ℕ) : ProcState :=
  { s with mem := Function.update s.mem (s.dst + off) byte,
           writes := s.writes ++ [s.dst + off] }

/-- The store `*progress = p`. -/
def ProcState.setProgress (s : ProcState) (p : FVal) : ProcState :=
  { s with progress := p, progressLog := s.progressLog ++ [p] }

/-- Lines 96-100 of `process`: the colour computed for one pixel before it is
converted to bytes. -/
def processColor (pw : ℚ → ℚ → FVal) (P : Params) (exposure : ℚ) (color : Color3f ℚ) :
    Color3f FVal :=
  let c : Color3f FVal :=
    { r := map color.r exposure P.A P.B P.C P.D P.E P.F P.W,
      g := map color.g exposure P.A P.B P.C P.D P.E P.F P.W,
      b := map color.b exposure P.A P.B P.C P.D P.E P.F P.W }
  let c := c.clampedValue
  let c := c.gammaCorrect pw P.gamma
  c

/-- The body of the inner loop of `process` (lines 95-105). -/
def processPixel (pw : ℚ → ℚ → FVal) (P : Params) (exposure : ℚ) (delta : FVal)
    (color : Color3f ℚ) (s : ProcState) : ProcState :=
  let c := processColor pw P exposure color
  let s := s.store 0 (castUInt8 (fmul (some 255) c.r))
  let s := s.store 1 (castUInt8 (fmul (some 255) c.g))
  let s := s.store 2 (castUInt8 (fmul (some 255) c.b))
  let s := { s with dst := s.dst + 3 }
  let s := s.setProgress (fadd s.progress delta)
  s

/-- The loop `for (int i = 0; i < n; ++i) body`. -/
def forLoop {σ : Type} (n : ℕ) (body : ℕ → σ → σ) (s : σ) : σ :=
  (List.range n).foldl (fun t i => body i t) s

/-- The value `delta = 1.f / (size.x() * size.y())` of `process`, in exact
arithmetic.  The sizes are natural numbers; the product is taken to fit an
`int`.  `processDeltaR` is the same value with the conversion of the product
to `float` and the division rounded. -/
def processDelta (image : Image) : FVal :=
  fdiv (some 1) (some ((image.size_x * image.size_y : ℕ) : ℚ))

/-- The state of `process` on entry to its loops: `*progress = 0.f` has been
stored, nothing has been written to the buffer `mem0`. -/
def processInit (mem0 : ℕ → Option ℕ) : ProcState :=
  { mem := mem0, dst := 0, progress := some 0, writes := [], progressLog := [some 0] }

/-- The inner loop of `process` for row `i`. -/
def processRow (pw : ℚ → ℚ → FVal) (P : Params) (image : Image) (exposure : ℚ)
    (i : ℕ) (s : ProcState) : ProcState :=
  forLoop image.size_x
    (fun j t => processPixel pw P exposure (processDelta image) (image.ref i j) t) s

/-- `UnchartedOperator::process`, on the image `image` and the output buffer
`mem0`; the result is the state on return. -/
def process (pw : ℚ → ℚ → FVal) (P : Params) (image : Image) (mem0 : ℕ → Option ℕ)
    (exposure : ℚ) : ProcState :=
  forLoop image.size_y (fun i s => processRow pw P image exposure i s) (processInit mem0)

/-- A `vec4` of the shading language, with components of type `α`. -/
structure Vec4 (α : Type) where
  x : α
  y : α
  z : α
  w : α

/-- Componentwise application of a function to a `vec4`. -/
def Vec4.map {α β : Type} (f : α → β) (v : Vec4 α) : Vec4 β :=
  { x := f v.x, y := f v.y, z := f v.z, w := f v.w }

/-- Componentwise combination of two `vec4`. -/
def Vec4.zipWith {α β γ : Type} (f : α → β → γ) (u : Vec4 α) (v : Vec4 β) : Vec4 γ :=
  { x := f u.x v.x, y := f u.y v.y, z := f u.z v.z, w := f u.w v.w }

namespace Shader

/-- The `uniform float` values of the fragment shader. -/
structure Uniforms where
  exposure : ℚ
  gamma : ℚ
  A : ℚ
  B : ℚ
  C : ℚ
  D : ℚ
  E : ℚ
  F : ℚ
  W : ℚ

/-- The built-in `clamp(x, minVal, maxVal)` of the shading language on one
component: `min(max(x, minVal), maxVal)`. -/
def clamp (x : FVal) (minVal maxVal : ℚ) : FVal :=
  x.map fun q => min (max q minVal) maxVal

/-- The shader function `clampedValue`. -/
def clampedValue (color : Vec4 FVal) : Vec4 FVal :=
  let color : Vec4 FVal := { color with w := some 1 }
  color.map fun c => clamp c 0 1

/-- The shader function `gammaCorrect`. -/
def gammaCorrect (pw : ℚ → ℚ → FVal) (U : Uniforms) (color : Vec4 FVal) : Vec4 FVal :=
  color.map fun c => fpow pw c (fdiv (some 1) (some U.gamma))

/-- The shader function `tonemap`. -/
def tonemap (U : Uniforms) (x : Vec4 FVal) : Vec4 FVal :=
  x.map fun t =>
    fsub
      (fdiv
        (fadd (fmul t (fadd (fmul (some U.A) t) (fmul (some U.C) (some U.B))))
          (fmul (some U.D) (some U.E)))
        (fadd (fmul t (fadd (fmul (some U.A) t) (some U.B)))
          (fmul (some U.D) (some U.F))))
      (fdiv (some U.E) (some U.F))

/-- The shader function `main`: `out_color` for the texel `texture(source, uv)`. -/
def main (pw : ℚ → ℚ → FVal) (U : Uniforms) (texel : Vec4 ℚ) : Vec4 FVal :=
  let color : Vec4 FVal := texel.map fun t => fmul (some U.exposure) (some t)
  let exposureBias : FVal := some 2
  let curr : Vec4 FVal := tonemap U (color.map fun c => fmul exposureBias c)
  let whiteScale : Vec4 FVal := (tonemap U ⟨some U.W, some U.W, some U.W, some U.W⟩).map
    fun t => fdiv (some 1) t
  let color : Vec4 FVal := Vec4.zipWith fmul curr whiteScale
  let color := clampedValue color
  gammaCorrect pw U color

end Shader

/-- The curve of the spec, written from its formula
`curve(t) = (t*(A*t + C*B) + D*E) / (t*(A*t + B) + D*F) - E/F`: the value of the
formula where both divisors are non-zero, no finite value elsewhere. -/
def curveSpec (A B C D E F t : ℚ) : FVal :=
  if t * (A * t + B) + D * F = 0 ∨ F = 0 then none
  else some ((t * (A * t + C * B) + D * E) / (t * (A * t + B) + D * F) - E / F)

/-- The single-channel mapping of the spec, written from its steps:
`curve(2.0 * (exposure * x)) * (1 / curve(W))`, finite where both curve values
are and `curve(W)` is non-zero. -/
def mapSpec (x exposure A B C D E F W : ℚ) : FVal :=
  match curveSpec A B C D E F (2 * (exposure * x)), curveSpec A B C D E F W with
  | some c, some cw => if cw = 0 then none else some (c * (1 / cw))
  | _, _ => none

/-- A property of `std::pow`: a base in `[0, 1]` raised to a finite exponent
`y ≥ 0` gives a finite value. -/
def PowFinite (pw : ℚ → ℚ → FVal) : Prop :=
  ∀ x y : ℚ, 0 ≤ x → x ≤ 1 → 0 ≤ y → ∃ r, pw x y = some r

/-- A property of `std::pow`: a base in `[0, 1]` raised to an exponent `y ≥ 0`
gives a value in `[0, 1]`. -/
def PowRange (pw : ℚ → ℚ → FVal) : Prop :=
  ∀ x y r : ℚ, 0 ≤ x → x ≤ 1 → 0 ≤ y → pw x y = some r → 0 ≤ r ∧ r ≤ 1

/-- A property of `std::pow`: for an exponent `y ≥ 0` it is non-decreasing in
a base in `[0, 1]`. -/
def PowMono (pw : ℚ → ℚ → FVal) : Prop :=
  ∀ x x' y r r' : ℚ, 0 ≤ x → x ≤ x' → x' ≤ 1 → 0 ≤ y →
    pw x y = some r → pw x' y = some r' → r ≤ r'

/-- A property of `std::pow`: the base `1` gives `1` for every finite exponent. -/
def PowOne (pw : ℚ → ℚ → FVal) : Prop :=
  ∀ y : ℚ, pw 1 y = some 1

/-- A property of `std::pow`: the base `0` raised to a finite exponent `y > 0`
gives `0`. -/
def PowZero (pw : ℚ → ℚ → FVal) : Prop :=
  ∀ y : ℚ, 0 < y → pw 0 y = some 0

/-- The image whose every channel is the channel of `image` multiplied by `e`. -/
def Image.scaled (image : Image) (e : ℚ) : Image :=
  { size_x := image.size_x,
    size_y := image.size_y,
    ref := fun i j =>
      { r := e * (image.ref i j).r, g := e * (image.ref i j).g, b := e * (image.ref i j).b } }

/-- The byte `process` stores for a channel value `c`: `(uint8_t) (255.f * c)`. -/
def channelByte (c : FVal) : Option ℕ :=
  castUInt8 (fmul (some 255) c)

/-- The byte `process` is to leave at offset `off` of the output buffer:
channel `off % 3` of the pixel number `off / 3` in row-major order. -/
def expectedByte (pw : ℚ → ℚ → FVal) (P : Params) (image : Image) (exposure : ℚ)
    (off : ℕ) : Option ℕ :=
  let c := processColor pw P exposure
    (image.ref (off / 3 / image.size_x) (off / 3 % image.size_x))
  match off % 3 with
  | 0 => channelByte c.r
  | 1 => channelByte c.g
  | _ => channelByte c.b

/-- The value of `*progress` after `k` executions of `*progress += delta`,
starting from `0`. -/
def progressAfter (delta : FVal) : ℕ → FVal
  | 0 => some 0
  | k + 1 => fadd (progressAfter delta k) delta

/-- The invariant of the loops of `process`: the state after `k` pixels. -/
structure ProcInv (pw : ℚ → ℚ → FVal) (P : Params) (image : Image) (mem0 : ℕ → Option ℕ)
    (exposure : ℚ) (k : ℕ) (s : ProcState) : Prop where
  dst_eq : s.dst = 3 * k
  writes_eq : s.writes = List.range (3 * k)
  mem_written : ∀ off, off < 3 * k → s.mem off = expectedByte pw P image exposure off
  mem_rest : ∀ off, 3 * k ≤ off → s.mem off = mem0 off
  progress_eq : s.progress = progressAfter (processDelta image) k
  log_eq : s.progressLog = (List.range (k + 1)).map (progressAfter (processDelta image))

/-! ## Rounded arithmetic

The source computes in `float`: every operation rounds its exact result to
binary32.  The definitions below repeat the source's functions with a rounding
operator `rnd` applied after each operation.  With `rnd = some` nothing is
rounded and they are the exact definitions above; with `rnd = round32` they
are the binary32 computation of the code. -/

/-- Rounding of a rational to the nearest integer, ties to even. -/
def roundNE (y : ℚ) : ℤ :=
  let f := ⌊y⌋
  let r := y - f
  if r < 1 / 2 then f else if 1 / 2 < r then f + 1 else if f % 2 = 0 then f else f + 1

/-- The binary logarithm of `n ≥ 1`, rounded down, by halving at most `fuel` times. -/
def log2Fuel : ℕ → ℕ → ℕ
  | 0, _ => 0
  | fuel + 1, n => if n < 2 then 0 else log2Fuel fuel (n / 2) + 1

/-- The binary exponent of `x ≠ 0`: the `e` with `2 ^ e ≤ |x| < 2 ^ (e + 1)`. -/
def expo (x : ℚ) : ℤ :=
  let k : ℤ := (log2Fuel x.num.natAbs x.num.natAbs : ℤ) - (log2Fuel x.den x.den : ℤ)
  if (2 : ℚ) ^ k ≤ |x| then k else k - 1

/-- Rounding to binary32, to nearest with ties to even: 24 significant bits,
exponents from `-126` (below which the spacing stays `2 ^ (-149)`), and no
finite value from `2 ^ 128` on. -/
def round32 (x : ℚ) : FVal :=
  if x = 0 then some 0
  else
    let e := max (expo x) (-126)
    let q : ℚ := 2 ^ (e - 23)
    let r : ℚ := roundNE (x / q) * q
    if (2 : ℚ) ^ (128 : ℤ) ≤ |r| then none else some r

/-- The spacing of the binary32 values around `x ≠ 0`. -/
def spacing32 (x : ℚ) : ℚ :=
  2 ^ (max (expo x) (-126) - 23)

/-- The multiple of the spacing nearest to `x`, ties to even: the value of
`round32 x` when it is finite. -/
def nearest32 (x : ℚ) : ℚ :=
  roundNE (x / spacing32 x) * spacing32 x

/-- The operator `a + b` with its result rounded by `rnd`. -/
def radd (rnd : ℚ → FVal) (a b : FVal) : FVal :=
  a.bind fun x => b.bind fun y => rnd (x + y)

/-- The operator `a - b` with its result rounded by `rnd`. -/
def rsub (rnd : ℚ → FVal) (a b : FVal) : FVal :=
  a.bind fun x => b.bind fun y => rnd (x - y)

/-- The operator `a * b` with its result rounded by `rnd`. -/
def rmul (rnd : ℚ → FVal) (a b : FVal) : FVal :=
  a.bind fun x => b.bind fun y => rnd (x * y)

/-- The operator `a / b` with its result rounded by `rnd`: not finite when the
divisor is zero. -/
def rdiv (rnd : ℚ → FVal) (a b : FVal) : FVal :=
  a.bind fun x => b.bind fun y => if y = 0 then none else rnd (x / y)

/-- `UnchartedOperator::mapAux`, each operation rounded by `rnd`. -/
def mapAuxR (rnd : ℚ → FVal) (x : FVal) (A B C D E F : ℚ) : FVal :=
  rsub rnd
    (rdiv rnd
      (radd rnd (rmul rnd x (radd rnd (rmul rnd (some A) x) (rmul rnd (some C) (some B))))
        (rmul rnd (some D) (some E)))
      (radd rnd (rmul rnd x (radd rnd (rmul rnd (some A) x) (some B)))
        (rmul rnd (some D) (some F))))
    (rdiv rnd (some E) (some F))

/-- `UnchartedOperator::map`, each operation rounded by `rnd`. -/
def mapR (rnd : ℚ → FVal) (v exposure A B C D E F W : ℚ) : FVal :=
  let value : FVal := rmul rnd (some exposure) (some v)
  let exposureBias : FVal := some 2
  let value : FVal := mapAuxR rnd (rmul rnd exposureBias value) A B C D E F
  let whiteScale : FVal := rdiv rnd (some 1) (mapAuxR rnd (some W) A B C D E F)
  let value : FVal := rmul rnd value whiteScale
  value

/-- `UnchartedOperator::graph`, each operation rounded by `rnd`; `pw` is
`std::pow` on `float`. -/
def graphR (rnd : ℚ → FVal) (pw : ℚ → ℚ → FVal) (P : Params) (value : ℚ) : FVal :=
  let value : FVal := mapR rnd value 1 P.A P.B P.C P.D P.E P.F P.W
  let value : FVal := clamp value 0 1
  let value : FVal := fpow pw value (rdiv rnd (some 1) (some P.gamma))
  value

/-- Lines 96-100 of `process`, each operation rounded by `rnd`. -/
def processColorR (rnd : ℚ → FVal) (pw : ℚ → ℚ → FVal) (P : Params) (exposure : ℚ)
    (color : Color3f ℚ) : Color3f FVal :=
  let c : Color3f FVal :=
    { r := mapR rnd color.r exposure P.A P.B P.C P.D P.E P.F P.W,
      g := mapR rnd color.g exposure P.A P.B P.C P.D P.E P.F P.W,
      b := mapR rnd color.b exposure P.A P.B P.C P.D P.E P.F P.W }
  let c := c.clampedValue
  let c : Color3f FVal :=
    { r := fpow pw c.r (rdiv rnd (some 1) (some P.gamma)),
      g := fpow pw c.g (rdiv rnd (some 1) (some P.gamma)),
      b := fpow pw c.b (rdiv rnd (some 1) (some P.gamma)) }
  c

/-- The body of the inner loop of `process` (lines 95-105), each operation
rounded by `rnd`. -/
def processPixelR (rnd : ℚ → FVal) (pw : ℚ → ℚ → FVal) (P : Params) (exposure : ℚ)
    (delta : FVal) (color : Color3f ℚ) (s : ProcState) : ProcState :=
  let c := processColorR rnd pw P exposure color
  let s := s.store 0 (castUInt8 (rmul rnd (some 255) c.r))
  let s := s.store 1 (castUInt8 (rmul rnd (some 255) c.g))
  let s := s.store 2 (castUInt8 (rmul rnd (some 255) c.b))
  let s := { s with dst := s.dst + 3 }
  let s := s.setProgress (radd rnd s.progress delta)
  s

/-- The value `delta = 1.f / (size.x() * size.y())` of `process`: the `int`
product is converted to `float`, then divides `1.f`; both steps round.  The
product is taken to fit an `int` (below `2 ^ 31`). -/
def processDeltaR (rnd : ℚ → FVal) (image : Image) : FVal :=
  rdiv rnd (some 1) (rnd ((image.size_x * image.size_y : ℕ) : ℚ))

/-- `UnchartedOperator::process`, each operation rounded by `rnd`. -/
def processR (rnd : ℚ → FVal) (pw : ℚ → ℚ → FVal) (P : Params) (image : Image)
    (mem0 : ℕ → Option ℕ) (exposure : ℚ) : ProcState :=
  forLoop image.size_y
    (fun i s => forLoop image.size_x
      (fun j t =>
        processPixelR rnd pw P exposure (processDeltaR rnd image) (image.ref i j) t) s)
    (processInit mem0)

/-- The value of `*progress` after `k` executions of `*progress += delta`,
starting from `0`, each sum rounded by `rnd`. -/
def progressAfterR (rnd : ℚ → FVal) (delta : FVal) : ℕ → FVal
  | 0 => some 0
  | k + 1 => radd rnd (progressAfterR rnd delta k) delta

/-- The parameter values of the constructor as the `float` literals the code
stores: `2.2f`, `0.22f`, `0.3f`, `0.1f`, `0.2f`, `0.01f`, `0.3f`, `11.2f`. -/
def defaultParams32 : Params :=
  { gamma := 9227469 / 4194304, A := 7381975 / 33554432, B := 5033165 / 16777216,
    C := 13421773 / 134217728, D := 13421773 / 67108864, E := 5368709 / 536870912,
    F := 5033165 / 16777216, W := 11744051 / 1048576 }

/-- A property of a rounding operator: it never reverses an order. -/
def RndMono (rnd : ℚ → FVal) : Prop :=
  ∀ x y a b : ℚ, x ≤ y → rnd x = some a → rnd y = some b → a ≤ b

/-- A property of a rounding operator: it leaves its own results unchanged. -/
def RndIdem (rnd : ℚ → FVal) : Prop :=
  rnd 0 = some 0 ∧ ∀ x r : ℚ, rnd x = some r → rnd r = some r

/-! ## Arithmetic on computed values -/

@[simp] theorem fadd_some (x y : ℚ) : fadd (some x) (some y) = some (x + y) := rfl

@[simp] theorem fsub_some (x y : ℚ) : fsub (some x) (some y) = some (x - y) := rfl

@[simp] theorem fmul_some (x y : ℚ) : fmul (some x) (some y) = some (x * y) := rfl

@[simp] theorem fsub_none_left (b : FVal) : fsub none b = none := rfl

@[simp] theorem fsub_none_right (a : FVal) : fsub a none = none := by
  cases a <;> rfl

@[simp] theorem fmul_none_left (b : FVal) : fmul none b = none := rfl

@[simp] theorem fmul_none_right (a : FVal) : fmul a none = none := by
  cases a <;> rfl

@[simp] theorem fdiv_none_right (a : FVal) : fdiv a none = none := by
  cases a <;> rfl

theorem fdiv_some (x y : ℚ) (h : y ≠ 0) : fdiv (some x) (some y) = some (x / y) := by
  simp [fdiv, h]

@[simp] theorem fdiv_zero (x : ℚ) : fdiv (some x) (some 0) = none := by
  simp [fdiv]

@[simp] theorem fpow_some (pw : ℚ → ℚ → FVal) (x y : ℚ) :
    fpow pw (some x) (some y) = pw x y := rfl

@[simp] theorem clamp_some (x lo hi : ℚ) :
    clamp (some x) lo hi = some (if x < lo then lo else if hi < x then hi else x) := rfl

@[simp] theorem clamp_none (lo hi : ℚ) : clamp none lo hi = none := rfl

/-- A clamped value lies between the bounds. -/
theorem clamp_range (v : FVal) (lo hi c : ℚ) (hb : lo ≤ hi) (h : clamp v lo hi = some c) :
    lo ≤ c ∧ c ≤ hi := by
  cases v with
  | none => simp at h
  | some x =>
    simp only [clamp_some, Option.some.injEq] at h
    subst h
    split_ifs with h1 h2
    · exact ⟨le_refl _, hb⟩
    · exact ⟨hb, le_refl _⟩
    · exact ⟨not_lt.mp h1, not_lt.mp h2⟩

/-- The curve value where both divisors are non-zero. -/
theorem mapAux_some (x A B C D E F : ℚ) (hden : x * (A * x + B) + D * F ≠ 0) (hF : F ≠ 0) :
    mapAux x A B C D E F =
      some ((x * (A * x + C * B) + D * E) / (x * (A * x + B) + D * F) - E / F) := by
  simp [mapAux, fdiv, hden, hF]

/-- `mapAux` has no finite value where a divisor is zero. -/
theorem mapAux_none (x A B C D E F : ℚ) (h : x * (A * x + B) + D * F = 0 ∨ F = 0) :
    mapAux x A B C D E F = none := by
  unfold mapAux
  rcases h with h | h
  · rw [h, fdiv_zero, fsub_none_left]
  · rw [h, fdiv_zero, fsub_none_right]

/-- `mapAux` computes the curve of the spec. -/
theorem mapAux_eq_curveSpec (x A B C D E F : ℚ) :
    mapAux x A B C D E F = curveSpec A B C D E F x := by
  unfold curveSpec
  split_ifs with h
  · exact mapAux_none x A B C D E F h
  · push_neg at h
    exact mapAux_some x A B C D E F h.1 h.2

/-- The value of `map` in terms of the two values of `mapAux`. -/
theorem map_some (v exposure A B C D E F W c cw : ℚ)
    (hc : mapAux (2 * (exposure * v)) A B C D E F = some c)
    (hcw : mapAux W A B C D E F = some cw) (h0 : cw ≠ 0) :
    map v exposure A B C D E F W = some (c * (1 / cw)) := by
  simp [map, hc, hcw, fdiv, h0]

/-- The inverse of `mapAux_some`: a finite curve value is the value of the formula,
and both divisors are non-zero. -/
theorem mapAux_eq_some (x A B C D E F c : ℚ) (h : mapAux x A B C D E F = some c) :
    x * (A * x + B) + D * F ≠ 0 ∧ F ≠ 0 ∧
      c = (x * (A * x + C * B) + D * E) / (x * (A * x + B) + D * F) - E / F := by
  by_cases hd : x * (A * x + B) + D * F = 0 ∨ F = 0
  · rw [mapAux_none x A B C D E F hd] at h
    exact absurd h (by simp)
  · push_neg at hd
    rw [mapAux_some x A B C D E F hd.1 hd.2] at h
    exact ⟨hd.1, hd.2, (Option.some.inj h).symm⟩

/-- `map` computes the single-channel mapping of the spec. -/
theorem map_eq_mapSpec (x exposure A B C D E F W : ℚ) :
    map x exposure A B C D E F W = mapSpec x exposure A B C D E F W := by
  unfold mapSpec
  rw [← mapAux_eq_curveSpec, ← mapAux_eq_curveSpec]
  cases hc : mapAux (2 * (exposure * x)) A B C D E F with
  | none => simp [map, hc]
  | some c =>
    cases hcw : mapAux W A B C D E F with
    | none => simp [map, hc, hcw]
    | some cw =>
      by_cases h0 : cw = 0
      · subst h0
        simp [map, hc, hcw]
      · simp only [h0, if_false]
        exact map_some x exposure A B C D E F W c cw hc hcw h0

/-! ## The stand-in `powQ` has the properties assumed of `std::pow` -/

/-- For an exponent `y ≥ 0`, `powQ` is a natural power of the base. -/
theorem powQ_of_nonneg (x y : ℚ) (hy : 0 ≤ y) : ∃ n : ℕ, powQ x y = some (x ^ n) := by
  have hfl : ⌊-y⌋ ≤ 0 := Int.floor_nonpos (by linarith)
  obtain ⟨n, hn⟩ := Int.eq_ofNat_of_zero_le (show 0 ≤ -⌊-y⌋ by omega)
  refine ⟨n, ?_⟩
  have hcond : ¬ (x = 0 ∧ y < 0) := fun h => absurd h.2 (not_lt.mpr hy)
  simp only [powQ, hcond, if_false, hn]
  rw [zpow_natCast]

theorem powQ_finite : PowFinite powQ := by
  intro x y _ _ hy
  obtain ⟨n, hn⟩ := powQ_of_nonneg x y hy
  exact ⟨_, hn⟩

theorem powQ_range : PowRange powQ := by
  intro x y r hx0 hx1 hy h
  obtain ⟨n, hn⟩ := powQ_of_nonneg x y hy
  rw [hn] at h
  have hr : x ^ n = r := Option.some.inj h
  subst hr
  exact ⟨pow_nonneg hx0 n, pow_le_one₀ hx0 hx1⟩

theorem powQ_mono : PowMono powQ := by
  intro x x' y r r' hx0 hxx _ hy h h'
  have hfl : ⌊-y⌋ ≤ 0 := Int.floor_nonpos (by linarith)
  obtain ⟨n, hn⟩ := Int.eq_ofNat_of_zero_le (show 0 ≤ -⌊-y⌋ by omega)
  have hcond : ∀ z : ℚ, ¬ (z = 0 ∧ y < 0) := fun z hz => absurd hz.2 (not_lt.mpr hy)
  simp only [powQ, hcond, if_false, hn, Int.ofNat_eq_coe, zpow_natCast,
    Option.some.injEq] at h h'
  rw [← h, ← h']
  exact pow_le_pow_left₀ hx0 hxx n

theorem powQ_one : PowOne powQ := by
  intro y
  simp [powQ]

/-! ## The structure of `graph` -/

@[simp] theorem fpow_none_left (pw : ℚ → ℚ → FVal) (b : FVal) : fpow pw none b = none := rfl

@[simp] theorem fpow_none_right (pw : ℚ → ℚ → FVal) (a : FVal) : fpow pw a none = none := by
  cases a <;> rfl

/-- The value of a channel after clamping and gamma correction, where the
mapped value `m` is finite and `gamma` is non-zero. -/
theorem gamma_clamp_some (pw : ℚ → ℚ → FVal) (m gamma : ℚ) (hg : gamma ≠ 0) :
    fpow pw (clamp (some m) 0 1) (fdiv (some 1) (some gamma)) =
      pw (if m < 0 then 0 else if 1 < m then 1 else m) (1 / gamma) := by
  rw [fdiv_some 1 gamma hg, clamp_some, fpow_some]

/-- A finite value after clamping and gamma correction comes from a finite
mapped value and a non-zero `gamma`. -/
theorem gamma_clamp_eq_some (pw : ℚ → ℚ → FVal) (v : FVal) (gamma r : ℚ)
    (h : fpow pw (clamp v 0 1) (fdiv (some 1) (some gamma)) = some r) :
    ∃ m c : ℚ, v = some m ∧ clamp (some m) 0 1 = some c ∧ gamma ≠ 0 ∧
      pw c (1 / gamma) = some r := by
  cases v with
  | none => simp at h
  | some m =>
    by_cases hg : gamma = 0
    · subst hg
      simp at h
    · refine ⟨m, _, rfl, rfl, hg, ?_⟩
      rw [gamma_clamp_some pw m gamma hg] at h
      exact h

/-- After clamping and gamma correction with `gamma ≥ 0`, a finite channel
value lies in `[0, 1]`. -/
theorem gamma_clamp_range (pw : ℚ → ℚ → FVal) (hpw : PowRange pw) (v : FVal) (gamma r : ℚ)
    (hg : 0 ≤ gamma) (h : fpow pw (clamp v 0 1) (fdiv (some 1) (some gamma)) = some r) :
    0 ≤ r ∧ r ≤ 1 := by
  obtain ⟨m, c, _, hc, _, hr⟩ := gamma_clamp_eq_some pw v gamma r h
  obtain ⟨hc0, hc1⟩ := clamp_range (some m) 0 1 c (by norm_num) hc
  exact hpw c (1 / gamma) r hc0 hc1 (by positivity) hr

/-- Clamping to `[0, 1]` is non-decreasing. -/
theorem clamp_mono (a b ca cb : ℚ) (hab : a ≤ b) (ha : clamp (some a) 0 1 = some ca)
    (hb : clamp (some b) 0 1 = some cb) : ca ≤ cb := by
  simp only [clamp_some, Option.some.injEq] at ha hb
  subst ha
  subst hb
  split_ifs <;> linarith

/-! ## Monotonicity of the curve -/

/-- The curve denominator is positive on `[0, +∞)` when `A, B ≥ 0` and `D, F > 0`. -/
theorem curve_den_pos (x A B D F : ℚ) (hx : 0 ≤ x) (hA : 0 ≤ A) (hB : 0 ≤ B) (hD : 0 < D)
    (hF : 0 < F) : 0 < x * (A * x + B) + D * F := by
  have h1 : 0 ≤ x * (A * x + B) := mul_nonneg hx (add_nonneg (mul_nonneg hA hx) hB)
  have h2 : 0 < D * F := mul_pos hD hF
  linarith

/-- Under the sign conditions on the parameters, `mapAux` is finite and
non-decreasing on `[0, +∞)`. -/
theorem mapAux_mono (A B C D E F x y : ℚ) (hA : 0 ≤ A) (hB : 0 ≤ B) (hD : 0 < D)
    (hF : 0 < F) (hC : C ≤ 1) (hEF : E ≤ F) (hE : E ≤ C * F) (hx : 0 ≤ x) (hxy : x ≤ y) :
    ∃ cx cy : ℚ, mapAux x A B C D E F = some cx ∧ mapAux y A B C D E F = some cy ∧
      cx ≤ cy := by
  have hy : 0 ≤ y := le_trans hx hxy
  have hdx := curve_den_pos x A B D F hx hA hB hD hF
  have hdy := curve_den_pos y A B D F hy hA hB hD hF
  refine ⟨_, _, mapAux_some x A B C D E F (ne_of_gt hdx) (ne_of_gt hF),
    mapAux_some y A B C D E F (ne_of_gt hdy) (ne_of_gt hF), ?_⟩
  have hkey : (y * (A * y + C * B) + D * E) * (x * (A * x + B) + D * F) -
      (x * (A * x + C * B) + D * E) * (y * (A * y + B) + D * F) =
      (y - x) * (A * B * (1 - C) * (x * y) + A * D * (F - E) * (x + y) +
        B * D * (C * F - E)) := by ring
  have h1 : 0 ≤ A * B * (1 - C) * (x * y) :=
    mul_nonneg (mul_nonneg (mul_nonneg hA hB) (by linarith)) (mul_nonneg hx hy)
  have h2 : 0 ≤ A * D * (F - E) * (x + y) :=
    mul_nonneg (mul_nonneg (mul_nonneg hA hD.le) (by linarith)) (add_nonneg hx hy)
  have h3 : 0 ≤ B * D * (C * F - E) :=
    mul_nonneg (mul_nonneg hB hD.le) (by linarith)
  have h4 : 0 ≤ (y - x) * (A * B * (1 - C) * (x * y) + A * D * (F - E) * (x + y) +
      B * D * (C * F - E)) := mul_nonneg (by linarith) (by linarith)
  have hdiv : (x * (A * x + C * B) + D * E) / (x * (A * x + B) + D * F) ≤
      (y * (A * y + C * B) + D * E) / (y * (A * y + B) + D * F) := by
    rw [div_le_div_iff₀ hdx hdy]
    linarith
  linarith

/-- Under the sign conditions on the parameters and a positive curve value at
`W`, `map` is finite and non-decreasing in its input on `[0, +∞)`, for every
exposure `≥ 0`. -/
theorem map_mono (A B C D E F W cw exposure x y : ℚ) (hA : 0 ≤ A) (hB : 0 ≤ B)
    (hD : 0 < D) (hF : 0 < F) (hC : C ≤ 1) (hEF : E ≤ F) (hE : E ≤ C * F)
    (hW : mapAux W A B C D E F = some cw) (hcw : 0 < cw) (he : 0 ≤ exposure)
    (hx : 0 ≤ x) (hxy : x ≤ y) :
    ∃ mx my : ℚ, map x exposure A B C D E F W = some mx ∧
      map y exposure A B C D E F W = some my ∧ mx ≤ my := by
  have hbx : 0 ≤ 2 * (exposure * x) := by positivity
  have hbxy : 2 * (exposure * x) ≤ 2 * (exposure * y) := by
    have := mul_le_mul_of_nonneg_left hxy he
    linarith
  obtain ⟨cx, cy, hcx, hcy, hle⟩ :=
    mapAux_mono A B C D E F _ _ hA hB hD hF hC hEF hE hbx hbxy
  refine ⟨_, _, map_some x exposure A B C D E F W cx cw hcx hW (ne_of_gt hcw),
    map_some y exposure A B C D E F W cy cw hcy hW (ne_of_gt hcw), ?_⟩
  exact mul_le_mul_of_nonneg_right hle (by positivity)

/-- Under the sign conditions on the parameters, a positive curve value at `W`
and `gamma > 0`, `graph` is finite and non-decreasing on `[0, +∞)`. -/
theorem graph_mono (pw : ℚ → ℚ → FVal) (hfin : PowFinite pw) (hmono : PowMono pw)
    (P : Params) (cw x y : ℚ) (hA : 0 ≤ P.A) (hB : 0 ≤ P.B) (hD : 0 < P.D) (hF : 0 < P.F)
    (hC : P.C ≤ 1) (hEF : P.E ≤ P.F) (hE : P.E ≤ P.C * P.F) (hg : 0 < P.gamma)
    (hW : mapAux P.W P.A P.B P.C P.D P.E P.F = some cw) (hcw : 0 < cw)
    (hx : 0 ≤ x) (hxy : x ≤ y) :
    ∃ rx ry : ℚ, graph pw P x = some rx ∧ graph pw P y = some ry ∧ rx ≤ ry := by
  obtain ⟨mx, my, hmx, hmy, hle⟩ :=
    map_mono P.A P.B P.C P.D P.E P.F P.W cw 1 x y hA hB hD hF hC hEF hE hW hcw
      (by norm_num) hx hxy
  obtain ⟨hcx0, hcx1⟩ := clamp_range (some mx) 0 1 _ (by norm_num) rfl
  obtain ⟨hcy0, hcy1⟩ := clamp_range (some my) 0 1 _ (by norm_num) rfl
  have hcle := clamp_mono mx my _ _ hle rfl rfl
  have hexp : (0 : ℚ) ≤ 1 / P.gamma := by positivity
  obtain ⟨rx, hrx⟩ := hfin _ (1 / P.gamma) hcx0 hcx1 hexp
  obtain ⟨ry, hry⟩ := hfin _ (1 / P.gamma) hcy0 hcy1 hexp
  refine ⟨rx, ry, ?_, ?_, hmono _ _ _ rx ry hcx0 hcle hcy1 hexp hrx hry⟩
  · simp only [graph, hmx]
    rw [gamma_clamp_some pw mx P.gamma (ne_of_gt hg)]
    exact hrx
  · simp only [graph, hmy]
    rw [gamma_clamp_some pw my P.gamma (ne_of_gt hg)]
    exact hry

/-! ## The loops of `process` -/

theorem forLoop_zero {σ : Type} (body : ℕ → σ → σ) (s : σ) : forLoop 0 body s = s := rfl

theorem forLoop_succ {σ : Type} (n : ℕ) (body : ℕ → σ → σ) (s : σ) :
    forLoop (n + 1) body s = body n (forLoop n body s) := by
  simp [forLoop, List.range_succ, List.foldl_append]

/-- The pixel number `i * w + j` of a column `j < w` has row `i` and column `j`. -/
theorem pixel_index (w i j : ℕ) (hj : j < w) :
    (i * w + j) / w = i ∧ (i * w + j) % w = j := by
  have hw : 0 < w := Nat.lt_of_le_of_lt (Nat.zero_le j) hj
  constructor
  · rw [Nat.add_comm, Nat.add_mul_div_right _ _ hw, Nat.div_eq_of_lt hj, Nat.zero_add]
  · rw [Nat.add_comm, Nat.add_mul_mod_self_right, Nat.mod_eq_of_lt hj]

/-- The invariant holds on entry to the loops. -/
theorem procInv_init (pw : ℚ → ℚ → FVal) (P : Params) (image : Image) (mem0 : ℕ → Option ℕ)
    (exposure : ℚ) : ProcInv pw P image mem0 exposure 0 (processInit mem0) where
  dst_eq := rfl
  writes_eq := rfl
  mem_written := fun off h => absurd h (by omega)
  mem_rest := fun _ _ => rfl
  progress_eq := rfl
  log_eq := rfl

/-- One execution of the loop body, for the pixel `(i, j)` of number
`k = i * w + j`, keeps the invariant. -/
theorem procInv_step (pw : ℚ → ℚ → FVal) (P : Params) (image : Image) (mem0 : ℕ → Option ℕ)
    (exposure : ℚ) (i j : ℕ) (hj : j < image.size_x) (s : ProcState)
    (h : ProcInv pw P image mem0 exposure (i * image.size_x + j) s) :
    ProcInv pw P image mem0 exposure (i * image.size_x + j + 1)
      (processPixel pw P exposure (processDelta image) (image.ref i j) s) := by
  obtain ⟨hdiv, hmod⟩ := pixel_index image.size_x i j hj
  generalize hk : i * image.size_x + j = k at h hdiv hmod
  obtain ⟨hdst, hwr, hmw, hmr, hpr, hlog⟩ := h
  constructor
  · simp only [processPixel, ProcState.store, ProcState.setProgress, hdst]
    omega
  · simp only [processPixel, ProcState.store, ProcState.setProgress, hdst, hwr]
    have e : 3 * (k + 1) = 3 * k + 1 + 1 + 1 := by omega
    rw [e, List.range_succ, List.range_succ, List.range_succ]
    simp [Nat.add_assoc]
  · intro off hoff
    simp only [processPixel, ProcState.store, ProcState.setProgress, hdst]
    by_cases h2 : off = 3 * k + 2
    · subst h2
      have e3 : (3 * k + 2) / 3 = k := by omega
      have e4 : (3 * k + 2) % 3 = 2 := by omega
      simp [expectedByte, channelByte, e3, e4, hdiv, hmod]
    · rw [Function.update_noteq h2]
      by_cases h1 : off = 3 * k + 1
      · subst h1
        have e3 : (3 * k + 1) / 3 = k := by omega
        have e4 : (3 * k + 1) % 3 = 1 := by omega
        simp [expectedByte, channelByte, e3, e4, hdiv, hmod]
      · rw [Function.update_noteq h1]
        by_cases h0 : off = 3 * k + 0
        · subst h0
          have e3 : (3 * k + 0) / 3 = k := by omega
          have e4 : (3 * k + 0) % 3 = 0 := by omega
          simp [expectedByte, channelByte, e3, e4, hdiv, hmod]
        · rw [Function.update_noteq h0]
          exact hmw off (by omega)
  · intro off hoff
    simp only [processPixel, ProcState.store, ProcState.setProgress, hdst]
    rw [Function.update_noteq (by omega), Function.update_noteq (by omega),
      Function.update_noteq (by omega)]
    exact hmr off (by omega)
  · simp only [processPixel, ProcState.store, ProcState.setProgress, hpr]
    rfl
  · simp only [processPixel, ProcState.store, ProcState.setProgress, hpr, hlog]
    rw [List.range_succ (k + 1), List.map_append]
    rfl

/-- The inner loop, run for the first `j ≤ w` columns of row `i`, keeps the invariant. -/
theorem procInv_cols (pw : ℚ → ℚ → FVal) (P : Params) (image : Image) (mem0 : ℕ → Option ℕ)
    (exposure : ℚ) (i : ℕ) (s : ProcState)
    (h : ProcInv pw P image mem0 exposure (i * image.size_x) s) :
    ∀ j, j ≤ image.size_x →
      ProcInv pw P image mem0 exposure (i * image.size_x + j)
        (forLoop j (fun j t =>
          processPixel pw P exposure (processDelta image) (image.ref i j) t) s) := by
  intro j
  induction j with
  | zero => intro _; exact h
  | succ j ih =>
    intro hj
    rw [forLoop_succ]
    exact procInv_step pw P image mem0 exposure i j (by omega) _ (ih (by omega))

/-- The outer loop, run for the first `i` rows, keeps the invariant. -/
theorem procInv_rows (pw : ℚ → ℚ → FVal) (P : Params) (image : Image) (mem0 : ℕ → Option ℕ)
    (exposure : ℚ) (i : ℕ) :
    ProcInv pw P image mem0 exposure (i * image.size_x)
      (forLoop i (fun i s => processRow pw P image exposure i s) (processInit mem0)) := by
  induction i with
  | zero =>
    rw [Nat.zero_mul]
    exact procInv_init pw P image mem0 exposure
  | succ i ih =>
    rw [forLoop_succ]
    have e : (i + 1) * image.size_x = i * image.size_x + image.size_x := by ring
    rw [e]
    exact procInv_cols pw P image mem0 exposure i _ ih image.size_x (le_refl _)

/-- The state `process` returns satisfies the invariant for all the pixels. -/
theorem procInv_process (pw : ℚ → ℚ → FVal) (P : Params) (image : Image)
    (mem0 : ℕ → Option ℕ) (exposure : ℚ) :
    ProcInv pw P image mem0 exposure (image.size_y * image.size_x)
      (process pw P image mem0 exposure) :=
  procInv_rows pw P image mem0 exposure image.size_y

/-- The three bytes `process` leaves for the pixel `(i, j)`. -/
theorem process_mem_pixel (pw : ℚ → ℚ → FVal) (P : Params) (image : Image)
    (mem0 : ℕ → Option ℕ) (exposure : ℚ) (i j : ℕ) (hi : i < image.size_y)
    (hj : j < image.size_x) :
    (process pw P image mem0 exposure).mem (3 * (i * image.size_x + j) + 0) =
      channelByte (processColor pw P exposure (image.ref i j)).r ∧
    (process pw P image mem0 exposure).mem (3 * (i * image.size_x + j) + 1) =
      channelByte (processColor pw P exposure (image.ref i j)).g ∧
    (process pw P image mem0 exposure).mem (3 * (i * image.size_x + j) + 2) =
      channelByte (processColor pw P exposure (image.ref i j)).b := by
  have hinv := procInv_process pw P image mem0 exposure
  obtain ⟨hdiv, hmod⟩ := pixel_index image.size_x i j hj
  have hlt : i * image.size_x + j < image.size_y * image.size_x := by
    have h1 : (i + 1) * image.size_x ≤ image.size_y * image.size_x :=
      Nat.mul_le_mul_right _ hi
    have h2 : (i + 1) * image.size_x = i * image.size_x + image.size_x := by ring
    omega
  generalize i * image.size_x + j = k at hdiv hmod hlt
  generalize image.size_y * image.size_x = n at hinv hlt
  refine ⟨?_, ?_, ?_⟩
  · rw [hinv.mem_written _ (by omega)]
    have e3 : (3 * k + 0) / 3 = k := by omega
    have e4 : (3 * k + 0) % 3 = 0 := by omega
    simp [expectedByte, channelByte, e3, e4, hdiv, hmod]
  · rw [hinv.mem_written _ (by omega)]
    have e3 : (3 * k + 1) / 3 = k := by omega
    have e4 : (3 * k + 1) % 3 = 1 := by omega
    simp [expectedByte, channelByte, e3, e4, hdiv, hmod]
  · rw [hinv.mem_written _ (by omega)]
    have e3 : (3 * k + 2) / 3 = k := by omega
    have e4 : (3 * k + 2) % 3 = 2 := by omega
    simp [expectedByte, channelByte, e3, e4, hdiv, hmod]

/-! ## Progress, bytes and the shader -/

/-- With a finite `delta = 1 / n`, `n > 0`, the progress after `k` pixels is `k / n`. -/
theorem progressAfter_eq (n : ℕ) (hn : 0 < n) (k : ℕ) :
    progressAfter (fdiv (some 1) (some (n : ℚ))) k = some ((k : ℚ) / n) := by
  have hn0 : (n : ℚ) ≠ 0 := by exact_mod_cast (ne_of_gt hn)
  induction k with
  | zero => simp [progressAfter]
  | succ k ih =>
    show fadd (progressAfter (fdiv (some 1) (some (n : ℚ))) k) _ = _
    rw [ih, fdiv_some 1 (n : ℚ) hn0, fadd_some]
    congr 1
    push_cast
    ring

/-- For a channel value `c` in `[0, 1]`, `255 * c` lies in `[0, 255]`, its
truncation is a byte, and the conversion to `uint8_t` gives that truncation. -/
theorem channelByte_in_range (c : ℚ) (h0 : 0 ≤ c) (h1 : c ≤ 1) :
    0 ≤ 255 * c ∧ 255 * c ≤ 255 ∧ 0 ≤ truncZ (255 * c) ∧ truncZ (255 * c) ≤ 255 ∧
      channelByte (some c) = some (truncZ (255 * c)).toNat := by
  have ha : (0 : ℚ) ≤ 255 * c := by positivity
  have hb : 255 * c ≤ 255 := by linarith
  have ht : truncZ (255 * c) = ⌊255 * c⌋ := by simp [truncZ, ha]
  have hf0 : 0 ≤ ⌊255 * c⌋ := Int.floor_nonneg.mpr ha
  have hf1 : ⌊255 * c⌋ ≤ 255 := by
    have h := Int.floor_le (255 * c)
    have h' : ((⌊255 * c⌋ : ℤ) : ℚ) ≤ ((255 : ℤ) : ℚ) := by
      push_cast
      linarith
    exact_mod_cast h'
  refine ⟨ha, hb, by rw [ht]; exact hf0, by rw [ht]; exact hf1, ?_⟩
  simp only [channelByte, castUInt8, fmul_some, Option.map_some', ht]
  rw [Int.emod_eq_of_lt hf0 (by omega)]

/-- The two clamps agree: the built-in of the shading language and the helper
of the CPU path. -/
theorem shader_clamp_eq (v : FVal) : Shader.clamp v 0 1 = clamp v 0 1 := by
  cases v with
  | none => rfl
  | some q =>
    simp only [Shader.clamp, clamp_some, Option.map_some', Option.some.injEq]
    split_ifs with h1 h2
    · rw [max_eq_right h1.le, min_eq_left (by norm_num)]
    · rw [max_eq_left (not_lt.mp h1), min_eq_right h2.le]
    · rw [max_eq_left (not_lt.mp h1), min_eq_left (not_lt.mp h2)]

/-- One component of the shader, from the texel value `t` to `out_color`, is
the channel value of the CPU path. -/
theorem shader_channel (pw : ℚ → ℚ → FVal) (U : Shader.Uniforms) (t : ℚ) :
    fpow pw (Shader.clamp
      (fmul
        (fsub
          (fdiv
            (fadd (fmul (fmul (some 2) (fmul (some U.exposure) (some t)))
              (fadd (fmul (some U.A) (fmul (some 2) (fmul (some U.exposure) (some t))))
                (fmul (some U.C) (some U.B))))
              (fmul (some U.D) (some U.E)))
            (fadd (fmul (fmul (some 2) (fmul (some U.exposure) (some t)))
              (fadd (fmul (some U.A) (fmul (some 2) (fmul (some U.exposure) (some t))))
                (some U.B)))
              (fmul (some U.D) (some U.F))))
          (fdiv (some U.E) (some U.F)))
        (fdiv (some 1)
          (fsub
            (fdiv
              (fadd (fmul (some U.W)
                (fadd (fmul (some U.A) (some U.W)) (fmul (some U.C) (some U.B))))
                (fmul (some U.D) (some U.E)))
              (fadd (fmul (some U.W) (fadd (fmul (some U.A) (some U.W)) (some U.B)))
                (fmul (some U.D) (some U.F))))
            (fdiv (some U.E) (some U.F))))) 0 1)
      (fdiv (some 1) (some U.gamma)) =
    fpow pw (clamp (map t U.exposure U.A U.B U.C U.D U.E U.F U.W) 0 1)
      (fdiv (some 1) (some U.gamma)) := by
  rw [shader_clamp_eq]
  rfl

/-! ## Black, exposure and the divisors -/

theorem powQ_zero : PowZero powQ := by
  intro y hy
  have hfl : ⌊-y⌋ < 0 := Int.floor_lt.mpr (by simpa using hy)
  obtain ⟨n, hn⟩ := Int.eq_ofNat_of_zero_le (show 0 ≤ -⌊-y⌋ by omega)
  have hn0 : n ≠ 0 := by
    intro h0
    have h1 : -⌊-y⌋ = 0 := by rw [hn, h0]; rfl
    omega
  have hcond : ¬ ((0 : ℚ) = 0 ∧ y < 0) := fun h => absurd h.2 (not_lt.mpr hy.le)
  unfold powQ
  rw [if_neg hcond, hn, zpow_natCast, zero_pow hn0]

/-- A finite value of `map` comes from two finite values of `mapAux`, the one at
`W` being non-zero. -/
theorem map_eq_some (v exposure A B C D E F W m : ℚ)
    (h : map v exposure A B C D E F W = some m) :
    ∃ c cw : ℚ, mapAux (2 * (exposure * v)) A B C D E F = some c ∧
      mapAux W A B C D E F = some cw ∧ cw ≠ 0 ∧ m = c * (1 / cw) := by
  cases hc : mapAux (2 * (exposure * v)) A B C D E F with
  | none => simp [map, hc] at h
  | some c =>
    cases hcw : mapAux W A B C D E F with
    | none => simp [map, hc, hcw] at h
    | some cw =>
      by_cases h0 : cw = 0
      · subst h0
        simp [map, hc, hcw] at h
      · rw [map_some v exposure A B C D E F W c cw hc hcw h0] at h
        exact ⟨c, cw, rfl, rfl, h0, (Option.some.inj h).symm⟩

/-- A finite curve value at `0` is `0`, whatever `E` is. -/
theorem mapAux_zero_of_some (A B C D E F c : ℚ) (h : mapAux 0 A B C D E F = some c) :
    c = 0 := by
  obtain ⟨hden, hF, hc⟩ := mapAux_eq_some 0 A B C D E F c h
  have hDF : D * F ≠ 0 := by simpa using hden
  have hD : D ≠ 0 := left_ne_zero_of_mul hDF
  rw [hc]
  field_simp
  ring

/-- The curve value at `0` is `0` when `D` and `F` are non-zero. -/
theorem mapAux_at_zero (A B C D E F : ℚ) (hD : D ≠ 0) (hF : F ≠ 0) :
    mapAux 0 A B C D E F = some 0 := by
  have hden : (0 : ℚ) * (A * 0 + B) + D * F ≠ 0 := by
    simpa using mul_ne_zero hD hF
  have h := mapAux_some 0 A B C D E F hden hF
  rw [h, mapAux_zero_of_some A B C D E F _ h]

/-- `map` sends `0` to `0`, for every exposure, when `D` and `F` are non-zero
and the curve value at `W` is finite and non-zero. -/
theorem map_at_zero (exposure A B C D E F W cw : ℚ) (hD : D ≠ 0) (hF : F ≠ 0)
    (hW : mapAux W A B C D E F = some cw) (hcw : cw ≠ 0) :
    map 0 exposure A B C D E F W = some 0 := by
  have hb : 2 * (exposure * 0) = (0 : ℚ) := by ring
  have hc : mapAux (2 * (exposure * 0)) A B C D E F = some 0 := by
    rw [hb]
    exact mapAux_at_zero A B C D E F hD hF
  rw [map_some 0 exposure A B C D E F W 0 cw hc hW hcw, zero_mul]

/-- A finite value of `map` at `0` is `0`. -/
theorem map_zero_of_some (exposure A B C D E F W m : ℚ)
    (h : map 0 exposure A B C D E F W = some m) : m = 0 := by
  obtain ⟨c, cw, hc, _, _, hm⟩ := map_eq_some 0 exposure A B C D E F W m h
  have hb : 2 * (exposure * 0) = (0 : ℚ) := by ring
  rw [hb] at hc
  rw [hm, mapAux_zero_of_some A B C D E F c hc, zero_mul]

/-- After clamping and gamma correction with `gamma > 0`, the mapped value `0`
stays `0`. -/
theorem gamma_clamp_zero (pw : ℚ → ℚ → FVal) (hpw : PowZero pw) (gamma : ℚ) (hg : 0 < gamma) :
    fpow pw (clamp (some 0) 0 1) (fdiv (some 1) (some gamma)) = some 0 := by
  rw [gamma_clamp_some pw 0 gamma (ne_of_gt hg)]
  simp only [lt_self_iff_false, if_false]
  norm_num
  exact hpw _ (by positivity)

/-- The byte stored for the channel value `0` is `0`. -/
theorem channelByte_zero : channelByte (some 0) = some 0 := by
  simp [channelByte, castUInt8, truncZ]

/-- The colour `process` computes for a black pixel is black, when `D` and `F`
are non-zero, the curve value at `W` is finite and non-zero and `gamma > 0`. -/
theorem processColor_black (pw : ℚ → ℚ → FVal) (hpw : PowZero pw) (P : Params)
    (exposure cw : ℚ) (hD : P.D ≠ 0) (hF : P.F ≠ 0)
    (hW : mapAux P.W P.A P.B P.C P.D P.E P.F = some cw) (hcw : cw ≠ 0) (hg : 0 < P.gamma) :
    processColor pw P exposure { r := 0, g := 0, b := 0 } =
      { r := some 0, g := some 0, b := some 0 } := by
  have hm := map_at_zero exposure P.A P.B P.C P.D P.E P.F P.W cw hD hF hW hcw
  have hz := gamma_clamp_zero pw hpw P.gamma hg
  simp only [processColor, Color3f.clampedValue, Color3f.gammaCorrect, hm, hz]

/-- `map` uses the exposure only to scale its input. -/
theorem map_prescale (v exposure A B C D E F W : ℚ) :
    map v exposure A B C D E F W = map (exposure * v) 1 A B C D E F W := by
  simp only [map, one_mul]

/-- The colour `process` computes at exposure `e` is the one it computes at
exposure `1` for the colour multiplied by `e`. -/
theorem processColor_prescale (pw : ℚ → ℚ → FVal) (P : Params) (e : ℚ) (color : Color3f ℚ) :
    processColor pw P e color =
      processColor pw P 1 { r := e * color.r, g := e * color.g, b := e * color.b } := by
  simp only [processColor, map_prescale color.r e, map_prescale color.g e,
    map_prescale color.b e]

/-- The bytes expected of `process` at exposure `e` are those expected at
exposure `1` on the scaled image. -/
theorem expectedByte_scaled (pw : ℚ → ℚ → FVal) (P : Params) (image : Image) (e : ℚ)
    (off : ℕ) :
    expectedByte pw P image e off = expectedByte pw P (image.scaled e) 1 off := by
  simp only [expectedByte, Image.scaled, processColor_prescale pw P e]

/-- `graph` is finite where both curve values are, the one at `W` is non-zero
and `gamma > 0`. -/
theorem graph_finite (pw : ℚ → ℚ → FVal) (hfin : PowFinite pw) (P : Params) (value c cw : ℚ)
    (hg : 0 < P.gamma) (hc : mapAux (2 * (1 * value)) P.A P.B P.C P.D P.E P.F = some c)
    (hcw : mapAux P.W P.A P.B P.C P.D P.E P.F = some cw) (h0 : cw ≠ 0) :
    ∃ r : ℚ, graph pw P value = some r := by
  have hm := map_some value 1 P.A P.B P.C P.D P.E P.F P.W c cw hc hcw h0
  obtain ⟨h1, h2⟩ := clamp_range (some (c * (1 / cw))) 0 1 _ (by norm_num) rfl
  obtain ⟨r, hr⟩ := hfin _ (1 / P.gamma) h1 h2 (by positivity)
  refine ⟨r, ?_⟩
  simp only [graph, hm]
  rw [gamma_clamp_some pw _ P.gamma (ne_of_gt hg)]
  exact hr

/-- The curve value at `W` for the default parameters. -/
theorem mapAux_default_W :
    mapAux defaultParams.W defaultParams.A defaultParams.B defaultParams.C defaultParams.D
      defaultParams.E defaultParams.F = some (504392 / 581565) := by
  rw [mapAux_some _ _ _ _ _ _ _ (by norm_num [defaultParams]) (by norm_num [defaultParams])]
  norm_num [defaultParams]

/-! ## The claims -/

/-- White-point normalization in exact arithmetic: when the curve has a finite,
non-zero value at `W`, every `v` and `exposure` whose biased input
`2 * exposure * v` equals `W` are mapped to `1` by `map`, before clamping. -/
theorem map_white_point_exact (v exposure A B C D E F W cw : ℚ)
    (hW : mapAux W A B C D E F = some cw) (h0 : cw ≠ 0) (hin : 2 * exposure * v = W) :
    map v exposure A B C D E F W = some 1 := by
  have hb : 2 * (exposure * v) = W := by rw [← hin]; ring
  have hc : mapAux (2 * (exposure * v)) A B C D E F = some cw := by rw [hb]; exact hW
  rw [map_some v exposure A B C D E F W cw cw hc hW h0]
  congr 1
  field_simp

/-- C7: `map x exposure` is `curve(2.0 * (exposure * x)) * (1 / curve(W))`,
and `mapAux` computes exactly the curve
`curve(t) = (t*(A*t + C*B) + D*E) / (t*(A*t + B) + D*F) - E/F`, where `curve`
and the product are the ones written from the spec. -/
theorem map_refines_spec (x exposure A B C D E F W : ℚ) :
    map x exposure A B C D E F W = mapSpec x exposure A B C D E F W ∧
    (∀ t : ℚ, mapAux t A B C D E F = curveSpec A B C D E F t) ∧
    (∀ t : ℚ, t * (A * t + B) + D * F ≠ 0 → F ≠ 0 →
      mapAux t A B C D E F =
        some ((t * (A * t + C * B) + D * E) / (t * (A * t + B) + D * F) - E / F)) :=
  ⟨map_eq_mapSpec x exposure A B C D E F W,
    fun t => mapAux_eq_curveSpec t A B C D E F,
    fun t hd hF => mapAux_some t A B C D E F hd hF⟩

/-- Witness of C7 at the default parameters: the curve value at `t = 1`. -/
theorem map_refines_spec_witness :
    mapAux 1 (22 / 100) (3 / 10) (1 / 10) (2 / 10) (1 / 100) (3 / 10) =
      some ((1 * (22 / 100 * 1 + 1 / 10 * (3 / 10)) + 2 / 10 * (1 / 100)) /
        (1 * (22 / 100 * 1 + 3 / 10) + 2 / 10 * (3 / 10)) - 1 / 100 / (3 / 10)) :=
  (map_refines_spec 0 1 (22 / 100) (3 / 10) (1 / 10) (2 / 10) (1 / 100) (3 / 10)
    (112 / 10)).2.2 1 (by norm_num) (by norm_num)

/-- C3, as stated, fails: with `Gamma = -1` (and `A = 0, B = 1, C = 1, D = 1,
E = 0, F = 1, W = 1`) the input `1/6` is mapped to `1/2`, and
`graph (1/6) = (1/2) ^ (1 / -1) = 2`, which is outside `[0, 1]`. -/
theorem graph_range_counterexample :
    (0 : ℚ) ≤ 1 / 6 ∧
    map (1 / 6) 1 0 1 1 1 0 1 1 = some (1 / 2) ∧
    graph powQ { gamma := -1, A := 0, B := 1, C := 1, D := 1, E := 0, F := 1, W := 1 }
      (1 / 6) = some 2 ∧
    ¬ ((2 : ℚ) ≤ 1) := by
  refine ⟨by norm_num, ?_, ?_, by norm_num⟩
  · simp [map, mapAux, fdiv]
    norm_num
  · simp [graph, map, mapAux, fdiv]
    norm_num [powQ]

/-- C3, amended: for every parameter set with `Gamma ≥ 0` and every input,
a finite value of `graph` lies in `[0, 1]`; and `graph` is finite whenever
`Gamma > 0`, both curve values are finite and the one at `W` is non-zero. -/
theorem graph_range (pw : ℚ → ℚ → FVal) (hpw : PowRange pw) (P : Params)
    (hg : 0 ≤ P.gamma) (value : ℚ) :
    (∀ r : ℚ, graph pw P value = some r → 0 ≤ r ∧ r ≤ 1) ∧
    (PowFinite pw → 0 < P.gamma → ∀ c cw : ℚ,
      mapAux (2 * (1 * value)) P.A P.B P.C P.D P.E P.F = some c →
      mapAux P.W P.A P.B P.C P.D P.E P.F = some cw → cw ≠ 0 →
      ∃ r : ℚ, graph pw P value = some r) := by
  constructor
  · intro r h
    exact gamma_clamp_range pw hpw _ P.gamma r hg h
  · intro hfin hpos c cw hc hcw h0
    have hm := map_some value 1 P.A P.B P.C P.D P.E P.F P.W c cw hc hcw h0
    obtain ⟨h1, h2⟩ := clamp_range (some (c * (1 / cw))) 0 1 _ (by norm_num) rfl
    obtain ⟨r, hr⟩ := hfin _ (1 / P.gamma) h1 h2 (by positivity)
    refine ⟨r, ?_⟩
    simp only [graph, hm]
    rw [gamma_clamp_some pw _ P.gamma (ne_of_gt hpos)]
    exact hr

/-- Witness of C3 at the default parameters and the input `1`, where `graph`
is `6474757 / 9709546` (about `0.667`) with the stand-in `powQ`. -/
theorem graph_range_witness :
    graph powQ defaultParams 1 = some (6474757 / 9709546) ∧
    (0 : ℚ) ≤ 6474757 / 9709546 ∧ (6474757 / 9709546 : ℚ) ≤ 1 := by
  have h : graph powQ defaultParams 1 = some (6474757 / 9709546) := by
    simp [graph, map, mapAux, fdiv, defaultParams]
    norm_num [powQ]
  exact ⟨h, (graph_range powQ powQ_range defaultParams (by norm_num [defaultParams]) 1).1
    (6474757 / 9709546) h⟩

/-- C9 at the failing input: with the default parameters the input `8`, which
is below `W = 11.2`, is already mapped to `1`: the mapped value
`curve(16) / curve(11.2)` exceeds `1`, is clamped to `1`, and `graph 8` is
`pow(1, 1 / 2.2) = 1`. -/
theorem graph_default_eight :
    (0 : ℚ) ≤ 8 ∧ (8 : ℚ) < defaultParams.W ∧
    map 8 1 defaultParams.A defaultParams.B defaultParams.C defaultParams.D defaultParams.E
      defaultParams.F defaultParams.W = some (199050314 / 192866891) ∧
    (∀ pw : ℚ → ℚ → FVal, graph pw defaultParams 8 = pw 1 (1 / (22 / 10))) ∧
    graph powQ defaultParams 8 = some 1 := by
  have hm : map 8 1 defaultParams.A defaultParams.B defaultParams.C defaultParams.D
      defaultParams.E defaultParams.F defaultParams.W = some (199050314 / 192866891) := by
    simp [map, mapAux, fdiv, defaultParams]
    norm_num
  have hg : ∀ pw : ℚ → ℚ → FVal, graph pw defaultParams 8 = pw 1 (1 / (22 / 10)) := by
    intro pw
    simp only [graph, hm]
    rw [gamma_clamp_some pw _ _ (by norm_num [defaultParams])]
    norm_num [defaultParams]
  refine ⟨by norm_num, by norm_num [defaultParams], hm, hg, ?_⟩
  rw [hg powQ]
  exact powQ_one _

/-- C1: for every image of width `w` and height `h`, every exposure and every
parameter set, `process` stores exactly to the offsets `0 .. 3*w*h - 1` of the
output buffer, in increasing order, leaves every other byte as it was, and for
every row `i < h`, column `j < w` and channel `k` the byte at offset
`3 * (i * w + j) + k` is the conversion to `uint8_t` (truncation toward zero)
of `255 * (clamp(map(c_k, exposure, A..F, W), 0, 1) ^ (1 / gamma))`, where `c_k`
is channel `k` of the pixel `(i, j)`. -/
theorem process_output (pw : ℚ → ℚ → FVal) (P : Params) (image : Image)
    (mem0 : ℕ → Option ℕ) (exposure : ℚ) :
    (process pw P image mem0 exposure).writes =
      List.range (3 * image.size_x * image.size_y) ∧
    (∀ off, 3 * image.size_x * image.size_y ≤ off →
      (process pw P image mem0 exposure).mem off = mem0 off) ∧
    ∀ i j, i < image.size_y → j < image.size_x →
      (process pw P image mem0 exposure).mem (3 * (i * image.size_x + j) + 0) =
        castUInt8 (fmul (some 255)
          (fpow pw (clamp (map (image.ref i j).r exposure P.A P.B P.C P.D P.E P.F P.W) 0 1)
            (fdiv (some 1) (some P.gamma)))) ∧
      (process pw P image mem0 exposure).mem (3 * (i * image.size_x + j) + 1) =
        castUInt8 (fmul (some 255)
          (fpow pw (clamp (map (image.ref i j).g exposure P.A P.B P.C P.D P.E P.F P.W) 0 1)
            (fdiv (some 1) (some P.gamma)))) ∧
      (process pw P image mem0 exposure).mem (3 * (i * image.size_x + j) + 2) =
        castUInt8 (fmul (some 255)
          (fpow pw (clamp (map (image.ref i j).b exposure P.A P.B P.C P.D P.E P.F P.W) 0 1)
            (fdiv (some 1) (some P.gamma)))) := by
  have hinv := procInv_process pw P image mem0 exposure
  have e : 3 * image.size_x * image.size_y = 3 * (image.size_y * image.size_x) := by ring
  refine ⟨?_, ?_, ?_⟩
  · rw [e]
    exact hinv.writes_eq
  · intro off hoff
    rw [e] at hoff
    exact hinv.mem_rest off hoff
  · intro i j hi hj
    exact process_mem_pixel pw P image mem0 exposure i j hi hj

/-- Witness of C1: an image of one row and two columns; the red channel `1/6`
of the pixel `(0, 1)` is mapped to `1/2` and stored at offset `3` as the byte
`127`, the truncation of `127.5`. -/
theorem process_output_witness :
    (process powQ { gamma := 1, A := 0, B := 1, C := 1, D := 1, E := 0, F := 1, W := 1 }
      { size_x := 2, size_y := 1, ref := fun _ _ => { r := 1 / 6, g := 1 / 2, b := 1 } }
      (fun _ => none) 1).mem (3 * (0 * 2 + 1) + 0) = some 127 := by
  rw [((process_output powQ
    { gamma := 1, A := 0, B := 1, C := 1, D := 1, E := 0, F := 1, W := 1 }
    { size_x := 2, size_y := 1, ref := fun _ _ => { r := 1 / 6, g := 1 / 2, b := 1 } }
    (fun _ => none) 1).2.2 0 1 (by decide) (by decide)).1]
  simp [map, mapAux, fdiv, castUInt8]
  norm_num [powQ, truncZ]
  rfl

/-- C5: with `exposure = 1`, each byte `process` writes for a channel of the
pixel `(i, j)` is the conversion to `uint8_t` of `255 * graph(c_k)`, `c_k`
being the input value of the channel; and the colour `process` computes before
the conversion to bytes is `graph` of each channel. -/
theorem process_agrees_with_graph (pw : ℚ → ℚ → FVal) (P : Params) (image : Image)
    (mem0 : ℕ → Option ℕ) :
    (∀ color : Color3f ℚ, processColor pw P 1 color =
      { r := graph pw P color.r, g := graph pw P color.g, b := graph pw P color.b }) ∧
    ∀ i j, i < image.size_y → j < image.size_x →
      (process pw P image mem0 1).mem (3 * (i * image.size_x + j) + 0) =
        castUInt8 (fmul (some 255) (graph pw P (image.ref i j).r)) ∧
      (process pw P image mem0 1).mem (3 * (i * image.size_x + j) + 1) =
        castUInt8 (fmul (some 255) (graph pw P (image.ref i j).g)) ∧
      (process pw P image mem0 1).mem (3 * (i * image.size_x + j) + 2) =
        castUInt8 (fmul (some 255) (graph pw P (image.ref i j).b)) :=
  ⟨fun _ => rfl, fun i j hi hj => process_mem_pixel pw P image mem0 1 i j hi hj⟩

/-- Witness of C5: on an image of one pixel, the byte of the red channel `1/6`
is the conversion of `255 * graph (1/6)`. -/
theorem process_agrees_with_graph_witness :
    (process powQ { gamma := 1, A := 0, B := 1, C := 1, D := 1, E := 0, F := 1, W := 1 }
      { size_x := 1, size_y := 1, ref := fun _ _ => { r := 1 / 6, g := 1 / 2, b := 1 } }
      (fun _ => none) 1).mem (3 * (0 * 1 + 0) + 0) =
    castUInt8 (fmul (some 255)
      (graph powQ { gamma := 1, A := 0, B := 1, C := 1, D := 1, E := 0, F := 1, W := 1 }
        (1 / 6))) :=
  ((process_agrees_with_graph powQ
    { gamma := 1, A := 0, B := 1, C := 1, D := 1, E := 0, F := 1, W := 1 }
    { size_x := 1, size_y := 1, ref := fun _ _ => { r := 1 / 6, g := 1 / 2, b := 1 } }
    (fun _ => none)).2 0 0 (by decide) (by decide)).1

/-- The progress in exact arithmetic: for every image of
`N = width * height ≥ 1` pixels, `process` stores `0` to `*progress` before the
first pixel and `k / N` after the `k`-th pixel, each value being the one before
plus `1 / N` and not below it, and returns with progress `1`. -/
theorem process_progress_exact (pw : ℚ → ℚ → FVal) (P : Params) (image : Image)
    (mem0 : ℕ → Option ℕ) (exposure : ℚ) (hN : 0 < image.size_x * image.size_y) :
    (process pw P image mem0 exposure).progressLog.head? = some (some 0) ∧
    (process pw P image mem0 exposure).progressLog =
      (List.range (image.size_x * image.size_y + 1)).map
        (fun k : ℕ => (some ((k : ℚ) / (image.size_x * image.size_y : ℕ)) : FVal)) ∧
    (∀ k : ℕ, k < image.size_x * image.size_y →
      (((k + 1 : ℕ) : ℚ) / (image.size_x * image.size_y : ℕ) =
        (k : ℚ) / (image.size_x * image.size_y : ℕ) +
          1 / (image.size_x * image.size_y : ℕ)) ∧
      (k : ℚ) / (image.size_x * image.size_y : ℕ) ≤
        ((k + 1 : ℕ) : ℚ) / (image.size_x * image.size_y : ℕ)) ∧
    (process pw P image mem0 exposure).progress = some 1 := by
  have hinv := procInv_process pw P image mem0 exposure
  have hn0 : ((image.size_x * image.size_y : ℕ) : ℚ) ≠ 0 := by
    exact_mod_cast (ne_of_gt hN)
  have hpos : (0 : ℚ) < ((image.size_x * image.size_y : ℕ) : ℚ) := by
    exact_mod_cast hN
  have hfun : progressAfter (processDelta image) =
      fun k : ℕ => (some ((k : ℚ) / (image.size_x * image.size_y : ℕ)) : FVal) := by
    funext k
    exact progressAfter_eq (image.size_x * image.size_y) hN k
  refine ⟨?_, ?_, ?_, ?_⟩
  · rw [hinv.log_eq, List.range_succ_eq_map]
    rfl
  · rw [hinv.log_eq, hfun, Nat.mul_comm image.size_y image.size_x]
  · intro k _
    constructor
    · push_cast
      ring
    · apply div_le_div_of_nonneg_right _ hpos.le
      push_cast
      linarith
  · rw [hinv.progress_eq, hfun, Nat.mul_comm image.size_y image.size_x]
    simp only
    rw [div_self hn0]

/-- C10, as stated, fails: with `Gamma = -1` (and `A = 0, B = 1, C = 1, D = 1,
E = 0, F = 1, W = 1`) a channel value `1/6` is mapped to `1/2`, clamped to `1/2`
and gamma-corrected to `(1/2) ^ (-1) = 2 > 1`; `255 * 2 = 510` does not fit
8 bits, and the byte stored is `510 mod 256 = 254`, not the truncation `510`. -/
theorem process_byte_counterexample :
    (processColor powQ
      { gamma := -1, A := 0, B := 1, C := 1, D := 1, E := 0, F := 1, W := 1 } 1
      { r := 1 / 6, g := 1 / 6, b := 1 / 6 }).r = some 2 ∧
    ¬ ((2 : ℚ) ≤ 1) ∧
    truncZ (255 * 2) = 510 ∧
    (process powQ { gamma := -1, A := 0, B := 1, C := 1, D := 1, E := 0, F := 1, W := 1 }
      { size_x := 1, size_y := 1, ref := fun _ _ => { r := 1 / 6, g := 1 / 6, b := 1 / 6 } }
      (fun _ => none) 1).mem 0 = some 254 := by
  have hc : (processColor powQ
      { gamma := -1, A := 0, B := 1, C := 1, D := 1, E := 0, F := 1, W := 1 } 1
      { r := 1 / 6, g := 1 / 6, b := 1 / 6 }).r = some 2 := by
    simp [processColor, Color3f.clampedValue, Color3f.gammaCorrect, map, mapAux, fdiv]
    norm_num [powQ]
  have ht : truncZ (255 * 2) = 510 := by
    norm_num [truncZ]
  refine ⟨hc, by norm_num, ht, ?_⟩
  have hm := (process_mem_pixel powQ
    { gamma := -1, A := 0, B := 1, C := 1, D := 1, E := 0, F := 1, W := 1 }
    { size_x := 1, size_y := 1, ref := fun _ _ => { r := 1 / 6, g := 1 / 6, b := 1 / 6 } }
    (fun _ => none) 1 0 0 (by decide) (by decide)).1
  rw [show (0 : ℕ) = 3 * (0 * 1 + 0) + 0 from rfl]
  refine hm.trans ?_
  simp only [hc, channelByte, castUInt8, fmul_some, Option.map_some', ht]
  rfl

/-- C10, amended: for every image, exposure and parameter set with `Gamma ≥ 0`,
each finite channel value `c` after clamping and gamma correction satisfies
`0 ≤ c ≤ 1`, so `255 * c` lies in `[0, 255]`, its truncation toward zero is a
byte, and the byte `process` stores for the channel is that truncation, with
no wrap-around. -/
theorem process_byte_in_range (pw : ℚ → ℚ → FVal) (hpw : PowRange pw) (P : Params)
    (hg : 0 ≤ P.gamma) (image : Image) (mem0 : ℕ → Option ℕ) (exposure : ℚ) (i j : ℕ)
    (hi : i < image.size_y) (hj : j < image.size_x) :
    (∀ c : ℚ, (processColor pw P exposure (image.ref i j)).r = some c →
      0 ≤ c ∧ c ≤ 1 ∧ 0 ≤ 255 * c ∧ 255 * c ≤ 255 ∧
      0 ≤ truncZ (255 * c) ∧ truncZ (255 * c) ≤ 255 ∧
      (process pw P image mem0 exposure).mem (3 * (i * image.size_x + j) + 0) =
        some (truncZ (255 * c)).toNat) ∧
    (∀ c : ℚ, (processColor pw P exposure (image.ref i j)).g = some c →
      0 ≤ c ∧ c ≤ 1 ∧ 0 ≤ 255 * c ∧ 255 * c ≤ 255 ∧
      0 ≤ truncZ (255 * c) ∧ truncZ (255 * c) ≤ 255 ∧
      (process pw P image mem0 exposure).mem (3 * (i * image.size_x + j) + 1) =
        some (truncZ (255 * c)).toNat) ∧
    (∀ c : ℚ, (processColor pw P exposure (image.ref i j)).b = some c →
      0 ≤ c ∧ c ≤ 1 ∧ 0 ≤ 255 * c ∧ 255 * c ≤ 255 ∧
      0 ≤ truncZ (255 * c) ∧ truncZ (255 * c) ≤ 255 ∧
      (process pw P image mem0 exposure).mem (3 * (i * image.size_x + j) + 2) =
        some (truncZ (255 * c)).toNat) := by
  obtain ⟨hr, hgr, hb⟩ := process_mem_pixel pw P image mem0 exposure i j hi hj
  refine ⟨?_, ?_, ?_⟩
  · intro c hc
    obtain ⟨h0, h1⟩ := gamma_clamp_range pw hpw _ P.gamma c hg hc
    obtain ⟨a1, a2, a3, a4, a5⟩ := channelByte_in_range c h0 h1
    exact ⟨h0, h1, a1, a2, a3, a4, by rw [hr, hc, a5]⟩
  · intro c hc
    obtain ⟨h0, h1⟩ := gamma_clamp_range pw hpw _ P.gamma c hg hc
    obtain ⟨a1, a2, a3, a4, a5⟩ := channelByte_in_range c h0 h1
    exact ⟨h0, h1, a1, a2, a3, a4, by rw [hgr, hc, a5]⟩
  · intro c hc
    obtain ⟨h0, h1⟩ := gamma_clamp_range pw hpw _ P.gamma c hg hc
    obtain ⟨a1, a2, a3, a4, a5⟩ := channelByte_in_range c h0 h1
    exact ⟨h0, h1, a1, a2, a3, a4, by rw [hb, hc, a5]⟩

/-- Witness of C10: on an image of one pixel with `Gamma = 1`, the red channel
`1/6` gives the channel value `1/2`, and the byte stored is the truncation of
`255 * (1/2)`. -/
theorem process_byte_in_range_witness :
    (process powQ { gamma := 1, A := 0, B := 1, C := 1, D := 1, E := 0, F := 1, W := 1 }
      { size_x := 1, size_y := 1, ref := fun _ _ => { r := 1 / 6, g := 1 / 2, b := 1 } }
      (fun _ => none) 1).mem (3 * (0 * 1 + 0) + 0) = some (truncZ (255 * (1 / 2))).toNat :=
  ((process_byte_in_range powQ powQ_range
    { gamma := 1, A := 0, B := 1, C := 1, D := 1, E := 0, F := 1, W := 1 } (by norm_num)
    { size_x := 1, size_y := 1, ref := fun _ _ => { r := 1 / 6, g := 1 / 2, b := 1 } }
    (fun _ => none) 1 0 0 (by decide) (by decide)).1 (1 / 2) (by
      simp [processColor, Color3f.clampedValue, Color3f.gammaCorrect, map, mapAux, fdiv]
      norm_num [powQ])).2.2.2.2.2.2

/-- A sufficient condition for monotonicity in exact arithmetic: for every
parameter set with `A ≥ 0`, `B ≥ 0`, `D > 0`, `F > 0`, `C ≤ 1`, `E ≤ F` and `E ≤ C * F`, `mapAux` is
finite and non-decreasing on `[0, +∞)`; if moreover `mapAux(W) > 0`, `map` is
non-decreasing in its input on `[0, +∞)` for every exposure `≥ 0`, and with
`Gamma > 0` so is `graph`.  The default values satisfy the conditions. -/
theorem monotone_sufficient_exact (P : Params) (hA : 0 ≤ P.A) (hB : 0 ≤ P.B) (hD : 0 < P.D)
    (hF : 0 < P.F) (hC : P.C ≤ 1) (hEF : P.E ≤ P.F) (hE : P.E ≤ P.C * P.F) :
    (∀ x y : ℚ, 0 ≤ x → x ≤ y →
      ∃ cx cy : ℚ, mapAux x P.A P.B P.C P.D P.E P.F = some cx ∧
        mapAux y P.A P.B P.C P.D P.E P.F = some cy ∧ cx ≤ cy) ∧
    (∀ cw : ℚ, mapAux P.W P.A P.B P.C P.D P.E P.F = some cw → 0 < cw →
      (∀ exposure x y : ℚ, 0 ≤ exposure → 0 ≤ x → x ≤ y →
        ∃ mx my : ℚ, map x exposure P.A P.B P.C P.D P.E P.F P.W = some mx ∧
          map y exposure P.A P.B P.C P.D P.E P.F P.W = some my ∧ mx ≤ my) ∧
      (∀ pw : ℚ → ℚ → FVal, PowFinite pw → PowMono pw → 0 < P.gamma →
        ∀ x y : ℚ, 0 ≤ x → x ≤ y →
          ∃ rx ry : ℚ, graph pw P x = some rx ∧ graph pw P y = some ry ∧ rx ≤ ry)) ∧
    (0 ≤ defaultParams.A ∧ 0 ≤ defaultParams.B ∧ 0 < defaultParams.D ∧ 0 < defaultParams.F ∧
      defaultParams.C ≤ 1 ∧ defaultParams.E ≤ defaultParams.F ∧
      defaultParams.E ≤ defaultParams.C * defaultParams.F) := by
  refine ⟨?_, ?_, ?_⟩
  · intro x y hx hxy
    exact mapAux_mono P.A P.B P.C P.D P.E P.F x y hA hB hD hF hC hEF hE hx hxy
  · intro cw hW hcw
    constructor
    · intro exposure x y he hx hxy
      exact map_mono P.A P.B P.C P.D P.E P.F P.W cw exposure x y hA hB hD hF hC hEF hE
        hW hcw he hx hxy
    · intro pw hfin hmono hg x y hx hxy
      exact graph_mono pw hfin hmono P cw x y hA hB hD hF hC hEF hE hg hW hcw hx hxy
  · norm_num [defaultParams]

/-- Black maps to black in exact arithmetic, for any toe numerator: for every
parameter set with `D ≠ 0`, `F ≠ 0` and `mapAux(W)` finite and non-zero, `mapAux 0 = 0` and
`map 0 = 0` for every exposure, whatever `E` is; hence with `Gamma > 0`,
`graph 0 = 0` and `process` writes the bytes `(0, 0, 0)` for a pixel whose three
channels are `0`. -/
theorem black_maps_to_black_exact (P : Params) (cw : ℚ) (hD : P.D ≠ 0) (hF : P.F ≠ 0)
    (hW : mapAux P.W P.A P.B P.C P.D P.E P.F = some cw) (hcw : cw ≠ 0) :
    mapAux 0 P.A P.B P.C P.D P.E P.F = some 0 ∧
    (∀ exposure : ℚ, map 0 exposure P.A P.B P.C P.D P.E P.F P.W = some 0) ∧
    (∀ pw : ℚ → ℚ → FVal, PowZero pw → 0 < P.gamma →
      graph pw P 0 = some 0 ∧
      ∀ (image : Image) (mem0 : ℕ → Option ℕ) (exposure : ℚ) (i j : ℕ),
        i < image.size_y → j < image.size_x → image.ref i j = { r := 0, g := 0, b := 0 } →
        (process pw P image mem0 exposure).mem (3 * (i * image.size_x + j) + 0) = some 0 ∧
        (process pw P image mem0 exposure).mem (3 * (i * image.size_x + j) + 1) = some 0 ∧
        (process pw P image mem0 exposure).mem (3 * (i * image.size_x + j) + 2) = some 0) := by
  refine ⟨mapAux_at_zero P.A P.B P.C P.D P.E P.F hD hF, ?_, ?_⟩
  · intro exposure
    exact map_at_zero exposure P.A P.B P.C P.D P.E P.F P.W cw hD hF hW hcw
  · intro pw hpw hg
    constructor
    · have hm := map_at_zero 1 P.A P.B P.C P.D P.E P.F P.W cw hD hF hW hcw
      simp only [graph, hm]
      exact gamma_clamp_zero pw hpw P.gamma hg
    · intro image mem0 exposure i j hi hj href
      obtain ⟨hr, hgr, hb⟩ := process_mem_pixel pw P image mem0 exposure i j hi hj
      have hcol := processColor_black pw hpw P exposure cw hD hF hW hcw hg
      rw [href, hcol] at hr hgr hb
      exact ⟨hr.trans channelByte_zero, hgr.trans channelByte_zero,
        hb.trans channelByte_zero⟩

/-- C14 (exposure is only a pre-scale of the input): for every `v`, exposure `e`
and parameter set, `map v e = map (e * v) 1`; and `process` at exposure `e`
makes the same stores and leaves the same bytes as `process` at exposure `1` on
the image whose every channel has been multiplied by `e`. -/
theorem exposure_prescale (pw : ℚ → ℚ → FVal) (P : Params) (image : Image)
    (mem0 : ℕ → Option ℕ) (e : ℚ) :
    (∀ v A B C D E F W : ℚ, map v e A B C D E F W = map (e * v) 1 A B C D E F W) ∧
    (process pw P image mem0 e).mem = (process pw P (image.scaled e) mem0 1).mem ∧
    (process pw P image mem0 e).writes = (process pw P (image.scaled e) mem0 1).writes := by
  have h1 := procInv_process pw P image mem0 e
  have h2 := procInv_process pw P (image.scaled e) mem0 1
  refine ⟨fun v A B C D E F W => map_prescale v e A B C D E F W, ?_, ?_⟩
  · funext off
    by_cases hoff : off < 3 * (image.size_y * image.size_x)
    · rw [h1.mem_written off hoff, h2.mem_written off hoff]
      exact expectedByte_scaled pw P image e off
    · rw [h1.mem_rest off (not_lt.mp hoff), h2.mem_rest off (not_lt.mp hoff)]
  · rw [h1.writes_eq, h2.writes_eq]
    rfl

/-- C15 (no division by zero at the defaults): with the default parameter
values, for every exposure `≥ 0` and channel value `≥ 0`, the curve denominator
`t * (A * t + B) + D * F` is non-zero at `t = 2 * (exposure * value)` and at
`t = W`, and `F`, `mapAux(W)` and `gamma` are non-zero; so `mapAux`, `map` and
`graph` are finite there. -/
theorem default_divisors_nonzero (exposure value : ℚ) (he : 0 ≤ exposure) (hv : 0 ≤ value) :
    (2 * (exposure * value)) * (defaultParams.A * (2 * (exposure * value)) + defaultParams.B) +
      defaultParams.D * defaultParams.F ≠ 0 ∧
    defaultParams.W * (defaultParams.A * defaultParams.W + defaultParams.B) +
      defaultParams.D * defaultParams.F ≠ 0 ∧
    defaultParams.F ≠ 0 ∧
    (mapAux defaultParams.W defaultParams.A defaultParams.B defaultParams.C defaultParams.D
      defaultParams.E defaultParams.F = some (504392 / 581565) ∧
      (504392 / 581565 : ℚ) ≠ 0) ∧
    defaultParams.gamma ≠ 0 ∧
    (∃ c : ℚ, mapAux (2 * (exposure * value)) defaultParams.A defaultParams.B defaultParams.C
      defaultParams.D defaultParams.E defaultParams.F = some c) ∧
    (∃ m : ℚ, map value exposure defaultParams.A defaultParams.B defaultParams.C
      defaultParams.D defaultParams.E defaultParams.F defaultParams.W = some m) ∧
    (∀ pw : ℚ → ℚ → FVal, PowFinite pw → ∃ r : ℚ, graph pw defaultParams value = some r) := by
  have hpos : ∀ t : ℚ, 0 ≤ t →
      0 < t * (defaultParams.A * t + defaultParams.B) + defaultParams.D * defaultParams.F :=
    fun t ht => curve_den_pos t defaultParams.A defaultParams.B defaultParams.D
      defaultParams.F ht (by norm_num [defaultParams]) (by norm_num [defaultParams])
      (by norm_num [defaultParams]) (by norm_num [defaultParams])
  have hF : defaultParams.F ≠ 0 := by norm_num [defaultParams]
  have ht : (0 : ℚ) ≤ 2 * (exposure * value) := by positivity
  have ht1 : (0 : ℚ) ≤ 2 * (1 * value) := by positivity
  have hc := mapAux_some (2 * (exposure * value)) defaultParams.A defaultParams.B
    defaultParams.C defaultParams.D defaultParams.E defaultParams.F (ne_of_gt (hpos _ ht)) hF
  have hc1 := mapAux_some (2 * (1 * value)) defaultParams.A defaultParams.B
    defaultParams.C defaultParams.D defaultParams.E defaultParams.F (ne_of_gt (hpos _ ht1)) hF
  refine ⟨ne_of_gt (hpos _ ht), ne_of_gt (hpos _ (by norm_num [defaultParams])), hF,
    ⟨mapAux_default_W, by norm_num⟩, by norm_num [defaultParams], ⟨_, hc⟩,
    ⟨_, map_some value exposure _ _ _ _ _ _ _ _ _ hc mapAux_default_W (by norm_num)⟩, ?_⟩
  intro pw hfin
  exact graph_finite pw hfin defaultParams value _ _ (by norm_num [defaultParams]) hc1
    mapAux_default_W (by norm_num)

/-- Witness of C15: exposure `1` and channel value `1`. -/
theorem default_divisors_nonzero_witness :
    ∃ m : ℚ, map 1 1 defaultParams.A defaultParams.B defaultParams.C
      defaultParams.D defaultParams.E defaultParams.F defaultParams.W = some m :=
  (default_divisors_nonzero 1 1 (by norm_num) (by norm_num)).2.2.2.2.2.2.1

/-! ## The exact definitions are the rounded ones without rounding -/

/-- Without rounding, `mapAuxR` is `mapAux`. -/
theorem mapAuxR_exact (x A B C D E F : ℚ) :
    mapAuxR some (some x) A B C D E F = mapAux x A B C D E F := rfl

/-- Without rounding, `mapR` is `map`. -/
theorem mapR_exact (v exposure A B C D E F W : ℚ) :
    mapR some v exposure A B C D E F W = map v exposure A B C D E F W := rfl

/-- Without rounding, `graphR` is `graph`. -/
theorem graphR_exact (pw : ℚ → ℚ → FVal) (P : Params) (value : ℚ) :
    graphR some pw P value = graph pw P value := rfl

/-- Without rounding, `processR` is `process`. -/
theorem processR_exact (pw : ℚ → ℚ → FVal) (P : Params) (image : Image)
    (mem0 : ℕ → Option ℕ) (exposure : ℚ) :
    processR some pw P image mem0 exposure = process pw P image mem0 exposure := rfl

/-- The `float` literals of the constructor are the decimal values rounded to
binary32. -/
theorem defaultParams32_eq :
    round32 defaultParams.gamma = some defaultParams32.gamma ∧
    round32 defaultParams.A = some defaultParams32.A ∧
    round32 defaultParams.B = some defaultParams32.B ∧
    round32 defaultParams.C = some defaultParams32.C ∧
    round32 defaultParams.D = some defaultParams32.D ∧
    round32 defaultParams.E = some defaultParams32.E ∧
    round32 defaultParams.F = some defaultParams32.F ∧
    round32 defaultParams.W = some defaultParams32.W := by
  decide!

/-! ## The code in binary32 -/

/-- C2, as stated, fails in the `float` arithmetic of the code.  At the default
parameters, `v = 2.8f` and `exposure = 2`, the biased input `2 * (2 * 2.8f)` is
`11.2f = W` exactly and the curve value at `W` is finite and non-zero, but `map`
returns `curve(W) * (1 / curve(W)) = 16777215 / 16777216` (`0.99999994`), not
`1.0`: the reciprocal and the product are each rounded. -/
theorem map_white_point_counterexample :
    round32 (28 / 10) = some (11744051 / 4194304) ∧
    rmul round32 (some 2) (rmul round32 (some 2) (some (11744051 / 4194304))) =
      some defaultParams32.W ∧
    mapAuxR round32 (some defaultParams32.W) defaultParams32.A defaultParams32.B defaultParams32.C defaultParams32.D
      defaultParams32.E defaultParams32.F = some (3637725 / 4194304) ∧
    (3637725 / 4194304 : ℚ) ≠ 0 ∧
    mapR round32 (11744051 / 4194304) 2 defaultParams32.A defaultParams32.B defaultParams32.C defaultParams32.D
      defaultParams32.E defaultParams32.F defaultParams32.W =
      some (16777215 / 16777216) ∧
    (16777215 / 16777216 : ℚ) ≠ 1 := by
  decide!

/-- C13, as stated, fails in the `float` arithmetic of the code.  At the default
parameters (`D` and `F` non-zero, curve value at `W` finite and non-zero),
`mapAux(0)` is `(D*E)/(D*F) - E/F` with the two quotients rounded separately:
it is `2 ^ (-28)`, not `0`; `map(0, 3)` is `9672081 / 2 ^ 51` (about `4.295e-9`),
and with `Gamma = 1` so is `graph(0)`. -/
theorem black_maps_to_black_counterexample :
    defaultParams32.D ≠ 0 ∧ defaultParams32.F ≠ 0 ∧
    mapAuxR round32 (some defaultParams32.W) defaultParams32.A defaultParams32.B defaultParams32.C defaultParams32.D
      defaultParams32.E defaultParams32.F = some (3637725 / 4194304) ∧
    (3637725 / 4194304 : ℚ) ≠ 0 ∧
    mapAuxR round32 (some 0) defaultParams32.A defaultParams32.B defaultParams32.C defaultParams32.D
      defaultParams32.E defaultParams32.F = some (1 / 268435456) ∧
    (1 / 268435456 : ℚ) ≠ 0 ∧
    mapR round32 0 3 defaultParams32.A defaultParams32.B defaultParams32.C defaultParams32.D
      defaultParams32.E defaultParams32.F defaultParams32.W = some (9672081 / 2251799813685248) ∧
    graphR round32 powQ { defaultParams32 with gamma := 1 } 0 =
      some (9672081 / 2251799813685248) ∧
    (9672081 / 2251799813685248 : ℚ) ≠ 0 := by
  decide!

/-- The value of `mapR` at the white point: the curve value at `W` times its
rounded reciprocal, rounded. -/
theorem mapR_at_white (rnd : ℚ → FVal) (v exposure A B C D E F W c w m : ℚ)
    (hb : rmul rnd (some 2) (rmul rnd (some exposure) (some v)) = some W)
    (hW : mapAuxR rnd (some W) A B C D E F = some c) (h0 : c ≠ 0)
    (hw : rnd (1 / c) = some w) (hm : rnd (c * w) = some m) :
    mapR rnd v exposure A B C D E F W = some m := by
  show rmul rnd (mapAuxR rnd (rmul rnd (some 2) (rmul rnd (some exposure) (some v)))
    A B C D E F) (rdiv rnd (some 1) (mapAuxR rnd (some W) A B C D E F)) = some m
  rw [hb, hW]
  simp only [rdiv, rmul, Option.some_bind, h0, if_false, hw, hm]

/-- The product of a value and its rounded reciprocal, rounded, is within
`2 * u + u ^ 2` of `1` when each rounding has relative error at most `u`. -/
theorem recip_product_error (c w m u : ℚ) (h0 : c ≠ 0) (hw : |w - 1 / c| ≤ u * |1 / c|)
    (hm : |m - c * w| ≤ u * |c * w|) : |m - 1| ≤ 2 * u + u ^ 2 := by
  have hc : 0 < |c| := abs_pos.mpr h0
  have hu : 0 ≤ u := by
    have h1 : 0 < |1 / c| := abs_pos.mpr (one_div_ne_zero h0)
    have h2 : 0 ≤ u * |1 / c| := le_trans (abs_nonneg _) hw
    by_contra hneg
    have h3 : u * |1 / c| < 0 := mul_neg_of_neg_of_pos (not_le.mp hneg) h1
    linarith
  have ha : |c * w - 1| ≤ u := by
    have e1 : c * w - 1 = c * (w - 1 / c) := by
      rw [mul_sub, mul_one_div_cancel h0]
    have e2 : |c| * |1 / c| = 1 := by
      rw [← abs_mul]
      have : c * (1 / c) = 1 := by field_simp
      rw [this, abs_one]
    rw [e1, abs_mul]
    calc |c| * |w - 1 / c| ≤ |c| * (u * |1 / c|) := mul_le_mul_of_nonneg_left hw hc.le
      _ = u * (|c| * |1 / c|) := by ring
      _ = u := by rw [e2, mul_one]
  have hb : |c * w| ≤ 1 + u := by
    have h1 : |c * w| = |(c * w - 1) + 1| := by ring_nf
    rw [h1]
    calc |(c * w - 1) + 1| ≤ |c * w - 1| + |(1 : ℚ)| := abs_add _ _
      _ ≤ u + 1 := by rw [abs_one]; linarith
      _ = 1 + u := by ring
  have h2 : |m - 1| ≤ |m - c * w| + |c * w - 1| := by
    have e : m - 1 = (m - c * w) + (c * w - 1) := by ring
    rw [e]
    exact abs_add _ _
  have h3 : u * |c * w| ≤ u * (1 + u) := mul_le_mul_of_nonneg_left hb hu
  nlinarith [h2, hm, ha, h3]

/-! ## Properties of the binary32 rounding -/

/-- `log2Fuel` is the binary logarithm rounded down, given enough fuel. -/
theorem log2Fuel_spec : ∀ fuel n : ℕ, 1 ≤ n → n ≤ fuel →
    2 ^ log2Fuel fuel n ≤ n ∧ n < 2 ^ (log2Fuel fuel n + 1) := by
  intro fuel
  induction fuel with
  | zero =>
    intro n h1 h2
    omega
  | succ fuel ih =>
    intro n h1 h2
    simp only [log2Fuel]
    split_ifs with h
    · constructor
      · simpa using h1
      · simpa using h
    · obtain ⟨ih1, ih2⟩ := ih (n / 2) (by omega) (by omega)
      rw [pow_succ] at ih2
      constructor
      · rw [pow_succ]
        omega
      · rw [pow_succ, pow_succ]
        omega

/-- The same bounds in `ℚ`, with integer exponents. -/
theorem log2Fuel_spec_rat (n : ℕ) (h1 : 1 ≤ n) :
    (2 : ℚ) ^ (log2Fuel n n : ℤ) ≤ n ∧ (n : ℚ) < 2 ^ ((log2Fuel n n : ℤ) + 1) := by
  obtain ⟨a, b⟩ := log2Fuel_spec n n h1 (le_refl n)
  constructor
  · rw [zpow_natCast]
    exact_mod_cast a
  · have e : ((log2Fuel n n : ℤ) + 1) = ((log2Fuel n n + 1 : ℕ) : ℤ) := by push_cast; rfl
    rw [e, zpow_natCast]
    exact_mod_cast b

/-- The absolute value of a rational as the quotient of two naturals. -/
theorem abs_eq_natAbs_div_den (x : ℚ) : |x| = (x.num.natAbs : ℚ) / (x.den : ℚ) := by
  have hd : (0 : ℚ) < x.den := by exact_mod_cast x.den_pos
  conv_lhs => rw [← Rat.num_div_den x]
  have h : |(x.num : ℚ)| = (x.num.natAbs : ℚ) := by
    rw [← Int.cast_abs, Int.abs_eq_natAbs, Int.cast_natCast]
  rw [abs_div, abs_of_pos hd, h]

/-- `expo x` is the binary exponent of `x ≠ 0`. -/
theorem expo_spec (x : ℚ) (hx : x ≠ 0) :
    (2 : ℚ) ^ expo x ≤ |x| ∧ |x| < (2 : ℚ) ^ (expo x + 1) := by
  have hn : 1 ≤ x.num.natAbs := by
    have : x.num ≠ 0 := Rat.num_ne_zero.mpr hx
    have := Int.natAbs_pos.mpr this
    omega
  have hd : 1 ≤ x.den := x.den_pos
  obtain ⟨n1, n2⟩ := log2Fuel_spec_rat x.num.natAbs hn
  obtain ⟨d1, d2⟩ := log2Fuel_spec_rat x.den hd
  have h2 : (2 : ℚ) ≠ 0 := by norm_num
  have hdpos : (0 : ℚ) < x.den := by exact_mod_cast x.den_pos
  have habs := abs_eq_natAbs_div_den x
  show (2 : ℚ) ^ (if (2 : ℚ) ^ ((log2Fuel x.num.natAbs x.num.natAbs : ℤ) -
      (log2Fuel x.den x.den : ℤ)) ≤ |x| then
        (log2Fuel x.num.natAbs x.num.natAbs : ℤ) - (log2Fuel x.den x.den : ℤ)
      else (log2Fuel x.num.natAbs x.num.natAbs : ℤ) - (log2Fuel x.den x.den : ℤ) - 1) ≤ |x| ∧
    |x| < (2 : ℚ) ^ ((if (2 : ℚ) ^ ((log2Fuel x.num.natAbs x.num.natAbs : ℤ) -
      (log2Fuel x.den x.den : ℤ)) ≤ |x| then
        (log2Fuel x.num.natAbs x.num.natAbs : ℤ) - (log2Fuel x.den x.den : ℤ)
      else (log2Fuel x.num.natAbs x.num.natAbs : ℤ) - (log2Fuel x.den x.den : ℤ) - 1) + 1)
  generalize (log2Fuel x.num.natAbs x.num.natAbs : ℤ) = ln at n1 n2 ⊢
  generalize (log2Fuel x.den x.den : ℤ) = ld at d1 d2 ⊢
  have hpd : (0 : ℚ) < 2 ^ ld := by positivity
  have hpd1 : (0 : ℚ) < 2 ^ (ld + 1) := by positivity
  have hup : |x| < (2 : ℚ) ^ (ln - ld + 1) := by
    have e : (2 : ℚ) ^ (ln - ld + 1) = 2 ^ (ln + 1) / 2 ^ ld := by
      rw [← zpow_sub₀ h2]
      congr 1
      ring
    rw [e, habs, div_lt_div_iff₀ hdpos hpd]
    calc (x.num.natAbs : ℚ) * 2 ^ ld ≤ (x.num.natAbs : ℚ) * x.den :=
          mul_le_mul_of_nonneg_left d1 (by positivity)
      _ < 2 ^ (ln + 1) * x.den := mul_lt_mul_of_pos_right n2 hdpos
  have hlo : (2 : ℚ) ^ (ln - ld - 1) ≤ |x| := by
    have e : (2 : ℚ) ^ (ln - ld - 1) = 2 ^ ln / 2 ^ (ld + 1) := by
      rw [← zpow_sub₀ h2]
      congr 1
      ring
    rw [e, habs, div_le_div_iff₀ hpd1 hdpos]
    calc (2 : ℚ) ^ ln * x.den ≤ (x.num.natAbs : ℚ) * x.den :=
          mul_le_mul_of_nonneg_right n1 hdpos.le
      _ ≤ (x.num.natAbs : ℚ) * 2 ^ (ld + 1) :=
          mul_le_mul_of_nonneg_left d2.le (by positivity)
  split_ifs with h
  · exact ⟨h, hup⟩
  · refine ⟨hlo, ?_⟩
    have e : ln - ld - 1 + 1 = ln - ld := by ring
    rw [e]
    exact not_le.mp h

/-- Rounding to the nearest integer leaves an integer unchanged. -/
theorem roundNE_intCast (z : ℤ) : roundNE (z : ℚ) = z := by
  simp [roundNE]

/-- A value that is an integer multiple of its own spacing is not changed by
`round32`. -/
theorem round32_of_int_multiple (x : ℚ) (z : ℤ) (hx : x ≠ 0)
    (hz : x / 2 ^ (max (expo x) (-126) - 23) = z) (hlt : |x| < 2 ^ (128 : ℤ)) :
    round32 x = some x := by
  have hq : (2 : ℚ) ^ (max (expo x) (-126) - 23) ≠ 0 := by positivity
  have hr : ((roundNE (x / 2 ^ (max (expo x) (-126) - 23)) : ℤ) : ℚ) *
      2 ^ (max (expo x) (-126) - 23) = x := by
    rw [hz, roundNE_intCast, ← hz, div_mul_cancel₀ _ hq]
  unfold round32
  rw [if_neg hx]
  simp only [hr]
  rw [if_neg (not_le.mpr hlt)]

/-- A binary32 value, `m * 2 ^ j` with at most 24 significant bits and an
exponent in range, is not changed by `round32`. -/
theorem round32_representable (m j : ℤ) (hm : |m| ≤ 2 ^ 24) (hj : -149 ≤ j)
    (hlt : |(m : ℚ) * 2 ^ j| < 2 ^ (128 : ℤ)) :
    round32 ((m : ℚ) * 2 ^ j) = some ((m : ℚ) * 2 ^ j) := by
  have h2 : (2 : ℚ) ≠ 0 := by norm_num
  have h12 : (1 : ℚ) < 2 := by norm_num
  by_cases hx : (m : ℚ) * 2 ^ j = 0
  · rw [hx]
    simp [round32]
  · obtain ⟨h1, _⟩ := expo_spec _ hx
    have hmq : |(m : ℚ)| ≤ 2 ^ 24 := by
      have : ((|m| : ℤ) : ℚ) ≤ ((2 ^ 24 : ℤ) : ℚ) := by exact_mod_cast hm
      simpa using this
    have habs : |(m : ℚ) * 2 ^ j| = |(m : ℚ)| * 2 ^ j := by
      rw [abs_mul, abs_of_pos (show (0 : ℚ) < 2 ^ j by positivity)]
    by_cases hcase : max (expo ((m : ℚ) * 2 ^ j)) (-126) - 23 ≤ j
    · obtain ⟨n, hn⟩ := Int.eq_ofNat_of_zero_le (sub_nonneg.mpr hcase)
      refine round32_of_int_multiple _ (m * 2 ^ n) hx ?_ hlt
      rw [mul_div_assoc, ← zpow_sub₀ h2, hn]
      push_cast
      rw [zpow_natCast]
    · have hcase' : j < max (expo ((m : ℚ) * 2 ^ j)) (-126) - 23 := not_le.mp hcase
      have hmax : max (expo ((m : ℚ) * 2 ^ j)) (-126) = expo ((m : ℚ) * 2 ^ j) := by
        apply max_eq_left
        by_contra hcon
        rw [max_eq_right (le_of_lt (not_le.mp hcon))] at hcase'
        omega
      rw [hmax] at hcase'
      have hle : (2 : ℚ) ^ expo ((m : ℚ) * 2 ^ j) ≤ 2 ^ (24 + j) := by
        calc (2 : ℚ) ^ expo ((m : ℚ) * 2 ^ j) ≤ |(m : ℚ)| * 2 ^ j := by rw [← habs]; exact h1
          _ ≤ 2 ^ 24 * 2 ^ j := mul_le_mul_of_nonneg_right hmq (by positivity)
          _ = 2 ^ (24 + j) := by
              rw [zpow_add₀ h2]
              norm_num
      have he : expo ((m : ℚ) * 2 ^ j) = j + 24 := by
        have := (zpow_le_zpow_iff_right₀ h12).mp hle
        omega
      have hm24 : |(m : ℚ)| = 2 ^ 24 := by
        apply le_antisymm hmq
        have h3 : (2 : ℚ) ^ (j + 24) ≤ |(m : ℚ)| * 2 ^ j := by
          rw [← habs, ← he]
          exact h1
        rw [zpow_add₀ h2] at h3
        have h4 : (0 : ℚ) < 2 ^ j := by positivity
        have h5 : (2 : ℚ) ^ (24 : ℤ) ≤ |(m : ℚ)| := by
          by_contra hcon
          have := mul_lt_mul_of_pos_left (not_le.mp hcon) h4
          linarith
        norm_num at h5
        linarith
      have hdiv : ((m / 2 : ℤ) : ℚ) = (m : ℚ) / 2 := by
        have hm' : |m| = 2 ^ 24 := by
          have : ((|m| : ℤ) : ℚ) = ((2 ^ 24 : ℤ) : ℚ) := by
            push_cast
            exact hm24
          exact_mod_cast this
        have hdvd : (2 : ℤ) ∣ m := by
          rcases abs_eq (by norm_num : (0 : ℤ) ≤ 2 ^ 24) |>.mp hm' with h | h
          · rw [h]; norm_num
          · rw [h]; norm_num
        rw [Int.cast_div hdvd (by norm_num)]
        norm_num
      refine round32_of_int_multiple _ (m / 2) hx ?_ hlt
      rw [hmax, he, hdiv, mul_div_assoc, ← zpow_sub₀ h2]
      have e : j - (j + 24 - 23) = -1 := by ring
      rw [e]
      norm_num
      ring

/-! ## The progress value with rounding -/

/-- One execution of the loop body adds `delta` to the progress, rounded. -/
theorem processPixelR_progress (rnd : ℚ → FVal) (pw : ℚ → ℚ → FVal) (P : Params)
    (exposure : ℚ) (delta : FVal) (color : Color3f ℚ) (s : ProcState) :
    (processPixelR rnd pw P exposure delta color s).progress = radd rnd s.progress delta ∧
    (processPixelR rnd pw P exposure delta color s).progressLog =
      s.progressLog ++ [radd rnd s.progress delta] :=
  ⟨rfl, rfl⟩

/-- A loop of `j` executions of the body, with any colours, takes the progress
from its value after `k` pixels to its value after `k + j` pixels. -/
theorem forLoop_progressR (rnd : ℚ → FVal) (pw : ℚ → ℚ → FVal) (P : Params)
    (exposure : ℚ) (delta : FVal) (col : ℕ → Color3f ℚ) (k : ℕ) (s : ProcState)
    (hp : s.progress = progressAfterR rnd delta k)
    (hl : s.progressLog = (List.range (k + 1)).map (progressAfterR rnd delta)) :
    ∀ j : ℕ,
      (forLoop j (fun j t => processPixelR rnd pw P exposure delta (col j) t) s).progress =
        progressAfterR rnd delta (k + j) ∧
      (forLoop j (fun j t => processPixelR rnd pw P exposure delta (col j) t) s).progressLog =
        (List.range (k + j + 1)).map (progressAfterR rnd delta) := by
  intro j
  induction j with
  | zero => exact ⟨hp, hl⟩
  | succ j ih =>
    rw [forLoop_succ]
    obtain ⟨ih1, ih2⟩ := ih
    obtain ⟨h1, h2⟩ := processPixelR_progress rnd pw P exposure delta (col j)
      (forLoop j (fun j t => processPixelR rnd pw P exposure delta (col j) t) s)
    constructor
    · rw [h1, ih1]
      rfl
    · rw [h2, ih1, ih2]
      have e : k + (j + 1) + 1 = (k + j + 1) + 1 := by omega
      rw [e, List.range_succ (k + j + 1), List.map_append]
      rfl

/-- The progress `processR` returns with, and the values it stored to
`*progress`: the rounded running sums of `delta`. -/
theorem processR_progress (rnd : ℚ → FVal) (pw : ℚ → ℚ → FVal) (P : Params) (image : Image)
    (mem0 : ℕ → Option ℕ) (exposure : ℚ) :
    (processR rnd pw P image mem0 exposure).progress =
      progressAfterR rnd (processDeltaR rnd image) (image.size_y * image.size_x) ∧
    (processR rnd pw P image mem0 exposure).progressLog =
      (List.range (image.size_y * image.size_x + 1)).map
        (progressAfterR rnd (processDeltaR rnd image)) := by
  have hrows : ∀ i : ℕ,
      (forLoop i (fun i s => forLoop image.size_x
        (fun j t => processPixelR rnd pw P exposure (processDeltaR rnd image)
          (image.ref i j) t) s) (processInit mem0)).progress =
        progressAfterR rnd (processDeltaR rnd image) (i * image.size_x) ∧
      (forLoop i (fun i s => forLoop image.size_x
        (fun j t => processPixelR rnd pw P exposure (processDeltaR rnd image)
          (image.ref i j) t) s) (processInit mem0)).progressLog =
        (List.range (i * image.size_x + 1)).map
          (progressAfterR rnd (processDeltaR rnd image)) := by
    intro i
    induction i with
    | zero =>
      rw [Nat.zero_mul]
      exact ⟨rfl, rfl⟩
    | succ i ih =>
      rw [forLoop_succ]
      have e : (i + 1) * image.size_x = i * image.size_x + image.size_x := by ring
      rw [e]
      exact forLoop_progressR rnd pw P exposure (processDeltaR rnd image) (image.ref i)
        (i * image.size_x) _ ih.1 ih.2 image.size_x
  exact hrows image.size_y

/-- With a monotone rounding that leaves its results unchanged and a `delta`
that is not negative, the rounded progress never decreases. -/
theorem progressAfterR_mono (rnd : ℚ → FVal) (hmono : RndMono rnd) (hidem : RndIdem rnd)
    (d : ℚ) (hd : 0 ≤ d) (k : ℕ) (p p' : ℚ)
    (hp : progressAfterR rnd (some d) k = some p)
    (hp' : progressAfterR rnd (some d) (k + 1) = some p') : p ≤ p' := by
  have hfix : rnd p = some p := by
    cases k with
    | zero =>
      have h0 : p = 0 := (Option.some.inj hp).symm
      rw [h0]
      exact hidem.1
    | succ k =>
      cases hq : progressAfterR rnd (some d) k with
      | none => simp [progressAfterR, hq, radd] at hp
      | some q =>
        have : rnd (q + d) = some p := by
          simpa [progressAfterR, hq, radd] using hp
        exact hidem.2 _ _ this
  have hstep : rnd (p + d) = some p' := by
    simpa [progressAfterR, hp, radd] using hp'
  exact hmono p (p + d) p p' (by linarith) hfix hstep

/-- In binary32 with `delta = 2 ^ (-25)`, the progress is `k * 2 ^ (-25)` after
`k ≤ 2 ^ 24` additions: these sums are exact. -/
theorem progress32_exact_phase : ∀ k : ℕ, k ≤ 16777216 →
    progressAfterR round32 (some (1 / 33554432)) k = some ((k : ℚ) / 33554432) := by
  intro k
  induction k with
  | zero => intro _; simp [progressAfterR]
  | succ k ih =>
    intro hk
    have hrep := round32_representable ((k + 1 : ℕ) : ℤ) (-25)
      (by rw [abs_of_nonneg (by positivity)]; exact_mod_cast hk) (by norm_num)
      (by
        rw [abs_of_nonneg (by positivity)]
        have h1 : (((k + 1 : ℕ) : ℤ) : ℚ) ≤ 16777216 := by exact_mod_cast hk
        have h2 : (0 : ℚ) < 2 ^ (-25 : ℤ) := by positivity
        have h3 : (2 : ℚ) ^ (-25 : ℤ) ≤ 1 := by norm_num
        have h4 : (16777216 : ℚ) < 2 ^ (128 : ℤ) := by norm_num
        calc (((k + 1 : ℕ) : ℤ) : ℚ) * 2 ^ (-25 : ℤ) ≤ 16777216 * 1 :=
              mul_le_mul h1 h3 h2.le (by norm_num)
          _ < 2 ^ (128 : ℤ) := by linarith)
    have e : (((k + 1 : ℕ) : ℤ) : ℚ) * 2 ^ (-25 : ℤ) = ((k + 1 : ℕ) : ℚ) / 33554432 := by
      norm_num
      ring
    rw [e] at hrep
    show radd round32 (progressAfterR round32 (some (1 / 33554432)) k)
      (some (1 / 33554432)) = _
    rw [ih (by omega)]
    show round32 ((k : ℚ) / 33554432 + 1 / 33554432) = _
    have e2 : (k : ℚ) / 33554432 + 1 / 33554432 = ((k + 1 : ℕ) : ℚ) / 33554432 := by
      push_cast
      ring
    rw [e2]
    exact hrep

/-- In binary32 with `delta = 2 ^ (-25)`, the progress stays at `1/2` once it
has reached it: `1/2 + 2 ^ (-25)` lies halfway between `1/2` and the next
`float` and is rounded back to `1/2`. -/
theorem progress32_stalled : ∀ n : ℕ,
    progressAfterR round32 (some (1 / 33554432)) (16777216 + n) = some (1 / 2) := by
  intro n
  induction n with
  | zero =>
    rw [Nat.add_zero, progress32_exact_phase 16777216 (le_refl _)]
    norm_num
  | succ n ih =>
    show radd round32 (progressAfterR round32 (some (1 / 33554432)) (16777216 + n))
      (some (1 / 33554432)) = _
    rw [ih]
    decide!

/-! ## Rounding to nearest is monotone and leaves `float` values unchanged -/

/-- `roundNE y` is the integer below `y` or the next one. -/
theorem roundNE_cases (y : ℚ) :
    (roundNE y = ⌊y⌋ ∧ y - ⌊y⌋ ≤ 1 / 2) ∨ (roundNE y = ⌊y⌋ + 1 ∧ 1 / 2 ≤ y - ⌊y⌋) := by
  unfold roundNE
  simp only []
  split_ifs with h1 h2 h3
  · exact Or.inl ⟨rfl, h1.le⟩
  · exact Or.inr ⟨rfl, h2.le⟩
  · exact Or.inl ⟨rfl, not_lt.mp h2⟩
  · exact Or.inr ⟨rfl, not_lt.mp h1⟩

/-- The rounding error of `roundNE` is at most `1/2`. -/
theorem roundNE_error (y : ℚ) : |(roundNE y : ℚ) - y| ≤ 1 / 2 := by
  have h1 := Int.floor_le y
  have h2 := Int.lt_floor_add_one y
  rw [abs_le]
  rcases roundNE_cases y with ⟨h, hr⟩ | ⟨h, hr⟩
  · rw [h]
    constructor <;> linarith
  · rw [h]
    push_cast
    constructor <;> linarith

/-- `roundNE` is monotone. -/
theorem roundNE_mono (y y' : ℚ) (h : y ≤ y') : roundNE y ≤ roundNE y' := by
  have hf : ⌊y⌋ ≤ ⌊y'⌋ := Int.floor_le_floor h
  rcases lt_or_eq_of_le hf with hlt | heq
  · have h1 : roundNE y ≤ ⌊y⌋ + 1 := by
      rcases roundNE_cases y with ⟨e, _⟩ | ⟨e, _⟩ <;> omega
    have h2 : ⌊y'⌋ ≤ roundNE y' := by
      rcases roundNE_cases y' with ⟨e, _⟩ | ⟨e, _⟩ <;> omega
    omega
  · unfold roundNE
    simp only []
    rw [← heq]
    have hr : y - ⌊y⌋ ≤ y' - ⌊y⌋ := by linarith
    split_ifs <;> first | omega | linarith

/-- `roundNE` respects integer bounds. -/
theorem roundNE_le_int (y : ℚ) (n : ℤ) (h : y ≤ n) : roundNE y ≤ n := by
  have := roundNE_mono y n h
  rwa [roundNE_intCast] at this

theorem int_le_roundNE (y : ℚ) (n : ℤ) (h : (n : ℚ) ≤ y) : n ≤ roundNE y := by
  have := roundNE_mono n y h
  rwa [roundNE_intCast] at this

/-- `round32` in terms of `nearest32`. -/
theorem round32_eq (x : ℚ) (hx : x ≠ 0) :
    round32 x = if (2 : ℚ) ^ (128 : ℤ) ≤ |nearest32 x| then none else some (nearest32 x) := by
  unfold round32
  rw [if_neg hx]
  rfl

/-- A finite result of `round32` at `x ≠ 0` is `nearest32 x`, below `2 ^ 128`. -/
theorem round32_eq_some (x r : ℚ) (hx : x ≠ 0) (h : round32 x = some r) :
    r = nearest32 x ∧ |r| < 2 ^ (128 : ℤ) := by
  rw [round32_eq x hx] at h
  split_ifs at h with hc
  have e : nearest32 x = r := Option.some.inj h
  rw [← e]
  exact ⟨rfl, not_le.mp hc⟩

theorem spacing32_pos (x : ℚ) : 0 < spacing32 x := by
  unfold spacing32
  positivity

/-- `2 ^ 24` spacings make `2 ^ (E + 1)`, and `2 ^ 23` make `2 ^ E`. -/
theorem spacing32_mul (x : ℚ) :
    (16777216 : ℚ) * spacing32 x = 2 ^ (max (expo x) (-126) + 1) ∧
    (8388608 : ℚ) * spacing32 x = 2 ^ (max (expo x) (-126)) := by
  have h2 : (2 : ℚ) ≠ 0 := by norm_num
  have e24 : (16777216 : ℚ) = 2 ^ (24 : ℤ) := by norm_num
  have e23 : (8388608 : ℚ) = 2 ^ (23 : ℤ) := by norm_num
  unfold spacing32
  constructor
  · rw [e24, ← zpow_add₀ h2]
    congr 1
    ring
  · rw [e23, ← zpow_add₀ h2]
    congr 1
    ring

/-- The absolute value of `x ≠ 0` is below `2 ^ (E + 1)`, `E` the exponent
used for rounding. -/
theorem abs_lt_top32 (x : ℚ) (hx : x ≠ 0) : |x| < 2 ^ (max (expo x) (-126) + 1) := by
  have h12 : (1 : ℚ) ≤ 2 := by norm_num
  obtain ⟨_, h2⟩ := expo_spec x hx
  exact lt_of_lt_of_le h2 (zpow_le_zpow_right₀ h12 (by
    have := le_max_left (expo x) (-126)
    omega))

/-- The rounded value of a positive `x` lies between `0` and the top of its
binade, and above the bottom of the binade for a normal `x`. -/
theorem nearest32_pos_bounds (x : ℚ) (hx : 0 < x) :
    0 ≤ nearest32 x ∧ nearest32 x ≤ 2 ^ (max (expo x) (-126) + 1) ∧
    (-126 ≤ expo x → (2 : ℚ) ^ expo x ≤ nearest32 x) := by
  have hq := spacing32_pos x
  obtain ⟨m24, m23⟩ := spacing32_mul x
  have htop := abs_lt_top32 x (ne_of_gt hx)
  rw [abs_of_pos hx] at htop
  refine ⟨?_, ?_, ?_⟩
  · have h0 : (0 : ℤ) ≤ roundNE (x / spacing32 x) :=
      int_le_roundNE _ 0 (by
        have : (0 : ℚ) ≤ x / spacing32 x := div_nonneg hx.le hq.le
        simpa using this)
    have : (0 : ℚ) ≤ (roundNE (x / spacing32 x) : ℚ) := by exact_mod_cast h0
    exact mul_nonneg this hq.le
  · have h1 : x / spacing32 x ≤ ((16777216 : ℤ) : ℚ) := by
      rw [div_le_iff₀ hq]
      push_cast
      rw [m24]
      exact htop.le
    have h2 : (roundNE (x / spacing32 x) : ℚ) ≤ ((16777216 : ℤ) : ℚ) := by
      exact_mod_cast roundNE_le_int _ _ h1
    rw [← m24]
    unfold nearest32
    push_cast at h2
    exact mul_le_mul_of_nonneg_right h2 hq.le
  · intro he
    have hmax : max (expo x) (-126) = expo x := max_eq_left he
    obtain ⟨hlo, _⟩ := expo_spec x (ne_of_gt hx)
    rw [abs_of_pos hx] at hlo
    rw [hmax] at m23
    have h1 : ((8388608 : ℤ) : ℚ) ≤ x / spacing32 x := by
      rw [le_div_iff₀ hq]
      push_cast
      rw [m23]
      exact hlo
    have h2 : ((8388608 : ℤ) : ℚ) ≤ (roundNE (x / spacing32 x) : ℚ) := by
      exact_mod_cast int_le_roundNE _ _ h1
    rw [← m23]
    unfold nearest32
    push_cast at h2
    exact mul_le_mul_of_nonneg_right h2 hq.le

/-- The rounded value of a negative `x`: the mirror image of the bounds for a
positive one. -/
theorem nearest32_neg_bounds (x : ℚ) (hx : x < 0) :
    nearest32 x ≤ 0 ∧ -(2 ^ (max (expo x) (-126) + 1)) ≤ nearest32 x ∧
    (-126 ≤ expo x → nearest32 x ≤ -((2 : ℚ) ^ expo x)) := by
  have hq := spacing32_pos x
  obtain ⟨m24, m23⟩ := spacing32_mul x
  have htop := abs_lt_top32 x (ne_of_lt hx)
  rw [abs_of_neg hx] at htop
  refine ⟨?_, ?_, ?_⟩
  · have h0 : roundNE (x / spacing32 x) ≤ (0 : ℤ) :=
      roundNE_le_int _ 0 (by
        have : x / spacing32 x ≤ (0 : ℚ) := div_nonpos_of_nonpos_of_nonneg hx.le hq.le
        simpa using this)
    have : (roundNE (x / spacing32 x) : ℚ) ≤ (0 : ℚ) := by exact_mod_cast h0
    exact mul_nonpos_of_nonpos_of_nonneg this hq.le
  · have h1 : ((-16777216 : ℤ) : ℚ) ≤ x / spacing32 x := by
      rw [le_div_iff₀ hq]
      push_cast
      rw [neg_mul, m24]
      linarith
    have h2 : ((-16777216 : ℤ) : ℚ) ≤ (roundNE (x / spacing32 x) : ℚ) := by
      exact_mod_cast int_le_roundNE _ _ h1
    rw [← m24, ← neg_mul]
    unfold nearest32
    push_cast at h2
    exact mul_le_mul_of_nonneg_right h2 hq.le
  · intro he
    have hmax : max (expo x) (-126) = expo x := max_eq_left he
    obtain ⟨hlo, _⟩ := expo_spec x (ne_of_lt hx)
    rw [abs_of_neg hx] at hlo
    rw [hmax] at m23
    have h1 : x / spacing32 x ≤ ((-8388608 : ℤ) : ℚ) := by
      rw [div_le_iff₀ hq]
      push_cast
      rw [neg_mul, m23]
      linarith
    have h2 : (roundNE (x / spacing32 x) : ℚ) ≤ ((-8388608 : ℤ) : ℚ) := by
      exact_mod_cast roundNE_le_int _ _ h1
    rw [← m23, ← neg_mul]
    unfold nearest32
    push_cast at h2
    exact mul_le_mul_of_nonneg_right h2 hq.le

/-- The exponent grows with the absolute value. -/
theorem expo_mono_abs (x y : ℚ) (hx : x ≠ 0) (hy : y ≠ 0) (h : |x| ≤ |y|) :
    expo x ≤ expo y := by
  have h12 : (1 : ℚ) < 2 := by norm_num
  obtain ⟨x1, _⟩ := expo_spec x hx
  obtain ⟨_, y2⟩ := expo_spec y hy
  have := (zpow_lt_zpow_iff_right₀ h12).mp (lt_of_le_of_lt (le_trans x1 h) y2)
  omega

/-- The sign of a finite result of `round32` is the sign of its argument. -/
theorem round32_sign (x a : ℚ) (h : round32 x = some a) :
    (x ≤ 0 → a ≤ 0) ∧ (0 ≤ x → 0 ≤ a) := by
  rcases lt_trichotomy x 0 with hx | hx | hx
  · obtain ⟨e, _⟩ := round32_eq_some x a (ne_of_lt hx) h
    rw [e]
    exact ⟨fun _ => (nearest32_neg_bounds x hx).1, fun h0 => absurd hx (not_lt.mpr h0)⟩
  · rw [hx] at h
    have e : a = 0 := by
      have h0 : round32 0 = some 0 := by simp [round32]
      rw [h0] at h
      exact (Option.some.inj h).symm
    rw [e]
    exact ⟨fun _ => le_refl _, fun _ => le_refl _⟩
  · obtain ⟨e, _⟩ := round32_eq_some x a (ne_of_gt hx) h
    rw [e]
    exact ⟨fun h0 => absurd hx (not_lt.mpr h0), fun _ => (nearest32_pos_bounds x hx).1⟩

/-- Two values with the same rounding exponent are rounded in order. -/
theorem nearest32_mono_same (x y : ℚ) (h : x ≤ y)
    (he : max (expo x) (-126) = max (expo y) (-126)) : nearest32 x ≤ nearest32 y := by
  have hs : spacing32 x = spacing32 y := by
    unfold spacing32
    rw [he]
  have hq := spacing32_pos y
  unfold nearest32
  rw [hs]
  have h1 : x / spacing32 y ≤ y / spacing32 y := div_le_div_of_nonneg_right h hq.le
  have h2 : (roundNE (x / spacing32 y) : ℚ) ≤ (roundNE (y / spacing32 y) : ℚ) := by
    exact_mod_cast roundNE_mono _ _ h1
  exact mul_le_mul_of_nonneg_right h2 hq.le

/-- `round32` never reverses an order. -/
theorem round32_mono : RndMono round32 := by
  intro x y a b hxy ha hb
  have h12 : (1 : ℚ) ≤ 2 := by norm_num
  rcases le_or_lt x 0 with hx0 | hx0
  · rcases le_or_lt 0 y with hy0 | hy0
    · exact le_trans ((round32_sign x a ha).1 hx0) ((round32_sign y b hb).2 hy0)
    · -- both negative
      have hx : x < 0 := lt_of_le_of_lt hxy hy0
      obtain ⟨ea, _⟩ := round32_eq_some x a (ne_of_lt hx) ha
      obtain ⟨eb, _⟩ := round32_eq_some y b (ne_of_lt hy0) hb
      rw [ea, eb]
      have habs : |y| ≤ |x| := by
        rw [abs_of_neg hx, abs_of_neg hy0]
        linarith
      have hexp := expo_mono_abs y x (ne_of_lt hy0) (ne_of_lt hx) habs
      rcases eq_or_lt_of_le (max_le_max hexp (le_refl (-126 : ℤ))) with heq | hlt
      · exact nearest32_mono_same x y hxy heq.symm
      · have hxe : -126 ≤ expo x := by
          by_contra hcon
          rw [max_eq_right (le_of_lt (not_le.mp hcon))] at hlt
          have := le_max_right (expo y) (-126)
          omega
        have hmax : max (expo x) (-126) = expo x := max_eq_left hxe
        rw [hmax] at hlt
        have h1 := (nearest32_neg_bounds x hx).2.2 hxe
        have h2 := (nearest32_neg_bounds y hy0).2.1
        have h3 : (2 : ℚ) ^ (max (expo y) (-126) + 1) ≤ 2 ^ expo x :=
          zpow_le_zpow_right₀ h12 (by omega)
        linarith
  · -- both positive
    have hy0 : 0 < y := lt_of_lt_of_le hx0 hxy
    obtain ⟨ea, _⟩ := round32_eq_some x a (ne_of_gt hx0) ha
    obtain ⟨eb, _⟩ := round32_eq_some y b (ne_of_gt hy0) hb
    rw [ea, eb]
    have habs : |x| ≤ |y| := by
      rw [abs_of_pos hx0, abs_of_pos hy0]
      exact hxy
    have hexp := expo_mono_abs x y (ne_of_gt hx0) (ne_of_gt hy0) habs
    rcases eq_or_lt_of_le (max_le_max hexp (le_refl (-126 : ℤ))) with heq | hlt
    · exact nearest32_mono_same x y hxy heq
    · have hye : -126 ≤ expo y := by
        by_contra hcon
        rw [max_eq_right (le_of_lt (not_le.mp hcon))] at hlt
        have := le_max_right (expo x) (-126)
        omega
      have hmax : max (expo y) (-126) = expo y := max_eq_left hye
      rw [hmax] at hlt
      have h1 := (nearest32_pos_bounds x hx0).2.1
      have h2 := (nearest32_pos_bounds y hy0).2.2 hye
      have h3 : (2 : ℚ) ^ (max (expo x) (-126) + 1) ≤ 2 ^ expo y :=
        zpow_le_zpow_right₀ h12 (by omega)
      linarith

/-- `round32` leaves its own results unchanged. -/
theorem round32_idem : RndIdem round32 := by
  refine ⟨by simp [round32], ?_⟩
  intro x r h
  by_cases hx : x = 0
  · rw [hx] at h
    have h0 : round32 0 = some 0 := by simp [round32]
    rw [h0] at h
    rw [← Option.some.inj h]
    exact h0
  · obtain ⟨e, hlt⟩ := round32_eq_some x r hx h
    have hq := spacing32_pos x
    obtain ⟨m24, _⟩ := spacing32_mul x
    have htop := abs_lt_top32 x hx
    rw [← m24] at htop
    have hdiv : |x / spacing32 x| ≤ ((16777216 : ℤ) : ℚ) := by
      rw [abs_div, abs_of_pos hq, div_le_iff₀ hq]
      push_cast
      exact htop.le
    obtain ⟨d1, d2⟩ := abs_le.mp hdiv
    have hm : |roundNE (x / spacing32 x)| ≤ 2 ^ 24 := by
      rw [abs_le]
      constructor
      · have := int_le_roundNE (x / spacing32 x) (-16777216) (by push_cast; push_cast at d1; exact d1)
        omega
      · have := roundNE_le_int (x / spacing32 x) 16777216 d2
        omega
    have hr : r = (roundNE (x / spacing32 x) : ℚ) * 2 ^ (max (expo x) (-126) - 23) := by
      rw [e]
      rfl
    rw [hr]
    apply round32_representable _ _ hm
    · have := le_max_right (expo x) (-126)
      omega
    · rw [← hr]
      exact hlt

/-- The relative error of `round32` on a normal value is at most `2 ^ (-24)`. -/
theorem round32_rel_error (x r : ℚ) (hn : (2 : ℚ) ^ (-126 : ℤ) ≤ |x|)
    (h : round32 x = some r) : |r - x| ≤ 1 / 16777216 * |x| := by
  have h12 : (1 : ℚ) < 2 := by norm_num
  have hx : x ≠ 0 := by
    intro h0
    rw [h0, abs_zero] at hn
    have : (0 : ℚ) < 2 ^ (-126 : ℤ) := by positivity
    linarith
  obtain ⟨e, _⟩ := round32_eq_some x r hx h
  obtain ⟨hlo, hhi⟩ := expo_spec x hx
  have hexp : -126 ≤ expo x := by
    have := (zpow_lt_zpow_iff_right₀ h12).mp (lt_of_le_of_lt hn hhi)
    omega
  have hq := spacing32_pos x
  obtain ⟨_, m23⟩ := spacing32_mul x
  rw [max_eq_left hexp] at m23
  have herr := roundNE_error (x / spacing32 x)
  have hrx : r - x = ((roundNE (x / spacing32 x) : ℚ) - x / spacing32 x) * spacing32 x := by
    rw [e]
    unfold nearest32
    rw [sub_mul, div_mul_cancel₀ _ (ne_of_gt hq)]
  rw [hrx, abs_mul, abs_of_pos hq]
  calc |(roundNE (x / spacing32 x) : ℚ) - x / spacing32 x| * spacing32 x
      ≤ 1 / 2 * spacing32 x := mul_le_mul_of_nonneg_right herr hq.le
    _ = 1 / 16777216 * (8388608 * spacing32 x) := by ring
    _ = 1 / 16777216 * 2 ^ expo x := by rw [m23]
    _ ≤ 1 / 16777216 * |x| := mul_le_mul_of_nonneg_left hlo (by norm_num)

/-! ## What survives rounding -/

/-- With a rounding that leaves its results unchanged, the curve at `0` is the
difference of the two quotients `(D * E) / (D * F)` and `E / F`, each rounded
on its own: the terms with the factor `0` vanish. -/
theorem mapAuxR_at_zero (rnd : ℚ → FVal) (hidem : RndIdem rnd) (A B C D E F cb : ℚ)
    (hcb : rnd (C * B) = some cb) (hB : rnd B = some B) :
    mapAuxR rnd (some 0) A B C D E F =
      rsub rnd (rdiv rnd (rmul rnd (some D) (some E)) (rmul rnd (some D) (some F)))
        (rdiv rnd (some E) (some F)) := by
  have h1 : rmul rnd (some A) (some 0) = some 0 := by
    show rnd (A * 0) = some 0
    rw [mul_zero]
    exact hidem.1
  have h2 : rmul rnd (some C) (some B) = some cb := hcb
  have h3 : radd rnd (some 0) (some cb) = some cb := by
    show rnd (0 + cb) = some cb
    rw [zero_add]
    exact hidem.2 _ _ hcb
  have h4 : ∀ t : ℚ, rmul rnd (some 0) (some t) = some 0 := by
    intro t
    show rnd (0 * t) = some 0
    rw [zero_mul]
    exact hidem.1
  have h5 : ∀ a b : ℚ, radd rnd (some 0) (rmul rnd (some a) (some b)) =
      rmul rnd (some a) (some b) := by
    intro a b
    cases hab : rmul rnd (some a) (some b) with
    | none => rfl
    | some r =>
      show rnd (0 + r) = some r
      rw [zero_add]
      exact hidem.2 _ _ hab
  have h6 : radd rnd (some 0) (some B) = some B := by
    show rnd (0 + B) = some B
    rw [zero_add]
    exact hB
  unfold mapAuxR
  rw [h1, h2, h3, h4, h5, h6, h4, h5]

/-- With a monotone rounding and a white scale that is not negative, `map`
keeps the order of the curve values. -/
theorem mapR_order (rnd : ℚ → FVal) (hmono : RndMono rnd)
    (x y exposure A B C D E F W c1 c2 ws m1 m2 : ℚ)
    (h1 : mapAuxR rnd (rmul rnd (some 2) (rmul rnd (some exposure) (some x))) A B C D E F =
      some c1)
    (h2 : mapAuxR rnd (rmul rnd (some 2) (rmul rnd (some exposure) (some y))) A B C D E F =
      some c2)
    (hc : c1 ≤ c2) (hws : rdiv rnd (some 1) (mapAuxR rnd (some W) A B C D E F) = some ws)
    (h0 : 0 ≤ ws) (hm1 : mapR rnd x exposure A B C D E F W = some m1)
    (hm2 : mapR rnd y exposure A B C D E F W = some m2) : m1 ≤ m2 := by
  have e1 : rnd (c1 * ws) = some m1 := by
    have : rmul rnd (mapAuxR rnd (rmul rnd (some 2) (rmul rnd (some exposure) (some x)))
        A B C D E F) (rdiv rnd (some 1) (mapAuxR rnd (some W) A B C D E F)) = some m1 := hm1
    rw [h1, hws] at this
    exact this
  have e2 : rnd (c2 * ws) = some m2 := by
    have : rmul rnd (mapAuxR rnd (rmul rnd (some 2) (rmul rnd (some exposure) (some y)))
        A B C D E F) (rdiv rnd (some 1) (mapAuxR rnd (some W) A B C D E F)) = some m2 := hm2
    rw [h2, hws] at this
    exact this
  exact hmono _ _ m1 m2 (mul_le_mul_of_nonneg_right hc h0) e1 e2

/-- Whatever the rounding, `graph` keeps the order of the values of `map` when
the exponent `1 / gamma` is not negative and `pow` is monotone in its base. -/
theorem graphR_order (rnd : ℚ → FVal) (pw : ℚ → ℚ → FVal) (hpw : PowMono pw) (P : Params)
    (x y mx my ex rx ry : ℚ)
    (hx : mapR rnd x 1 P.A P.B P.C P.D P.E P.F P.W = some mx)
    (hy : mapR rnd y 1 P.A P.B P.C P.D P.E P.F P.W = some my) (hle : mx ≤ my)
    (hex : rdiv rnd (some 1) (some P.gamma) = some ex) (h0 : 0 ≤ ex)
    (hrx : graphR rnd pw P x = some rx) (hry : graphR rnd pw P y = some ry) : rx ≤ ry := by
  have e1 : pw (if mx < 0 then 0 else if 1 < mx then 1 else mx) ex = some rx := by
    have : fpow pw (clamp (mapR rnd x 1 P.A P.B P.C P.D P.E P.F P.W) 0 1)
        (rdiv rnd (some 1) (some P.gamma)) = some rx := hrx
    rw [hx, hex] at this
    exact this
  have e2 : pw (if my < 0 then 0 else if 1 < my then 1 else my) ex = some ry := by
    have : fpow pw (clamp (mapR rnd y 1 P.A P.B P.C P.D P.E P.F P.W) 0 1)
        (rdiv rnd (some 1) (some P.gamma)) = some ry := hry
    rw [hy, hex] at this
    exact this
  obtain ⟨a0, _⟩ := clamp_range (some mx) 0 1 _ (by norm_num) rfl
  obtain ⟨_, b1⟩ := clamp_range (some my) 0 1 _ (by norm_num) rfl
  exact hpw _ _ ex rx ry a0 (clamp_mono mx my _ _ hle rfl rfl) b1 h0 e1 e2

/-- In binary32 the progress never decreases, whatever the image. -/
theorem progress32_mono (image : Image) (k : ℕ) (p p' : ℚ)
    (hp : progressAfterR round32 (processDeltaR round32 image) k = some p)
    (hp' : progressAfterR round32 (processDeltaR round32 image) (k + 1) = some p') :
    p ≤ p' := by
  cases hd : processDeltaR round32 image with
  | none =>
    rw [hd] at hp'
    have : radd round32 (progressAfterR round32 none k) none = some p' := hp'
    cases hq : progressAfterR round32 none k with
    | none => rw [hq] at this; exact absurd this (by simp [radd])
    | some q => rw [hq] at this; exact absurd this (by simp [radd])
  | some d =>
    rw [hd] at hp hp'
    have hd0 : 0 ≤ d := by
      cases hn : round32 ((image.size_x * image.size_y : ℕ) : ℚ) with
      | none =>
        have : rdiv round32 (some 1) (round32 ((image.size_x * image.size_y : ℕ) : ℚ)) =
            some d := hd
        rw [hn] at this
        exact absurd this (by simp [rdiv])
      | some n =>
        have hn0 : 0 ≤ n := (round32_sign _ n hn).2 (by positivity)
        have hdiv : rdiv round32 (some 1) (some n) = some d := by
          have : rdiv round32 (some 1) (round32 ((image.size_x * image.size_y : ℕ) : ℚ)) =
              some d := hd
          rw [hn] at this
          exact this
        by_cases hz : n = 0
        · rw [hz] at hdiv
          exact absurd hdiv (by simp [rdiv])
        · have : round32 (1 / n) = some d := by
            simpa [rdiv, hz] using hdiv
          exact (round32_sign _ d this).2 (by positivity)
    exact progressAfterR_mono round32 round32_mono round32_idem d hd0 k p p' hp hp'

/-! ## The amended claims -/

/-- C2, amended: when the curve value `c` at `W` is finite and non-zero and the
biased input equals `W`, `map` returns `c * (1 / c)` as the code computes it.
In exact arithmetic that is `1.0`.  With rounding, `map` is the rounded product
of `c` and its rounded reciprocal, which is within `2 * u + u ^ 2` of `1` when
each of the two roundings has relative error at most `u`; in binary32 that is
the case with `u = 2 ^ (-24)` when `1 / c` and the product are normal values. -/
theorem map_white_point_rounded (v exposure A B C D E F W : ℚ) :
    (∀ cw : ℚ, mapAux W A B C D E F = some cw → cw ≠ 0 → 2 * exposure * v = W →
      map v exposure A B C D E F W = some 1) ∧
    (∀ (rnd : ℚ → FVal) (c w m : ℚ),
      rmul rnd (some 2) (rmul rnd (some exposure) (some v)) = some W →
      mapAuxR rnd (some W) A B C D E F = some c → c ≠ 0 →
      rnd (1 / c) = some w → rnd (c * w) = some m →
      mapR rnd v exposure A B C D E F W = some m ∧
      ∀ u : ℚ, |w - 1 / c| ≤ u * |1 / c| → |m - c * w| ≤ u * |c * w| →
        |m - 1| ≤ 2 * u + u ^ 2) ∧
    (∀ c w m : ℚ,
      rmul round32 (some 2) (rmul round32 (some exposure) (some v)) = some W →
      mapAuxR round32 (some W) A B C D E F = some c → c ≠ 0 →
      round32 (1 / c) = some w → round32 (c * w) = some m →
      (2 : ℚ) ^ (-126 : ℤ) ≤ |1 / c| → (2 : ℚ) ^ (-126 : ℤ) ≤ |c * w| →
      mapR round32 v exposure A B C D E F W = some m ∧
      |m - 1| ≤ 2 * (1 / 16777216) + (1 / 16777216) ^ 2) := by
  refine ⟨?_, ?_, ?_⟩
  · intro cw hW h0 hin
    exact map_white_point_exact v exposure A B C D E F W cw hW h0 hin
  · intro rnd c w m hb hW h0 hw hm
    exact ⟨mapR_at_white rnd v exposure A B C D E F W c w m hb hW h0 hw hm,
      fun u h1 h2 => recip_product_error c w m u h0 h1 h2⟩
  · intro c w m hb hW h0 hw hm hn1 hn2
    exact ⟨mapR_at_white round32 v exposure A B C D E F W c w m hb hW h0 hw hm,
      recip_product_error c w m (1 / 16777216) h0 (round32_rel_error _ _ hn1 hw)
        (round32_rel_error _ _ hn2 hm)⟩

/-- Witness of C2 in binary32: at the default parameters, `v = 2.8f` and
`exposure = 2`, `map` is `16777215 / 16777216`, within `2 * u + u ^ 2` of `1`
for `u = 2 ^ (-24)`. -/
theorem map_white_point_rounded_witness :
    mapR round32 (11744051 / 4194304) 2 defaultParams32.A defaultParams32.B defaultParams32.C defaultParams32.D
      defaultParams32.E defaultParams32.F defaultParams32.W =
      some (16777215 / 16777216) ∧
    |(16777215 / 16777216 : ℚ) - 1| ≤ 2 * (1 / 16777216) + (1 / 16777216) ^ 2 :=
  (map_white_point_rounded (11744051 / 4194304) 2 defaultParams32.A
    defaultParams32.B defaultParams32.C defaultParams32.D defaultParams32.E
    defaultParams32.F defaultParams32.W).2.2 (3637725 / 4194304) (9672081 / 8388608)
    (16777215 / 16777216) (by decide!) (by decide!) (by decide!) (by decide!) (by decide!)
    (by decide!) (by decide!)

/-- C6, as stated, fails.  On an image without pixels `process` stores `0` to
`*progress`, executes no loop body, and returns with progress `0`, not `1.0`.
And in the `float` arithmetic of the code the sum is not within a tolerance of
`1`: on an image of `8192 * 4096 = 2 ^ 25` pixels `delta` is `2 ^ (-25)`, the sums
are exact up to `1/2` and every later `1/2 + delta` is rounded back to `1/2`,
so `process` returns with progress `0.5`. -/
theorem process_progress_counterexample :
    (process powQ defaultParams
      { size_x := 0, size_y := 0, ref := fun _ _ => { r := 0, g := 0, b := 0 } }
      (fun _ => none) 1).progress = some 0 ∧
    (process powQ defaultParams
      { size_x := 0, size_y := 0, ref := fun _ _ => { r := 0, g := 0, b := 0 } }
      (fun _ => none) 1).progressLog = [some 0] ∧
    (some 0 : FVal) ≠ some 1 ∧
    processDeltaR round32
      { size_x := 8192, size_y := 4096, ref := fun _ _ => { r := 1, g := 1, b := 1 } } =
        some (1 / 33554432) ∧
    (processR round32 powQ defaultParams32
      { size_x := 8192, size_y := 4096, ref := fun _ _ => { r := 1, g := 1, b := 1 } }
      (fun _ => none) 1).progress = some (1 / 2) ∧
    (some (1 / 2) : FVal) ≠ some 1 := by
  have hd : processDeltaR round32
      { size_x := 8192, size_y := 4096, ref := fun _ _ => { r := 1, g := 1, b := 1 } } =
        some (1 / 33554432) := by
    decide!
  refine ⟨rfl, rfl, by simp, hd, ?_, by norm_num⟩
  rw [(processR_progress round32 powQ defaultParams32
    { size_x := 8192, size_y := 4096, ref := fun _ _ => { r := 1, g := 1, b := 1 } }
    (fun _ => none) 1).1, hd]
  exact progress32_stalled 16777216

/-- C6, amended: for every image of `1 ≤ N = width * height < 2 ^ 31` pixels,
`process` stores `0` to `*progress` before the first pixel and adds `delta`
after each pixel.  In exact arithmetic `delta = 1 / N`, the value after `k`
pixels is `k / N`, never below the one before, and the progress on return is
`1`.  With rounding, the values stored are the rounded running sums of the
rounded `delta`; in binary32 they still never decrease, but the value on
return is not bound to be near `1`. -/
theorem process_progress_rounded (pw : ℚ → ℚ → FVal) (P : Params) (image : Image)
    (mem0 : ℕ → Option ℕ) (exposure : ℚ) (hN : 0 < image.size_x * image.size_y)
    (_hint : image.size_x * image.size_y < 2 ^ 31) :
    ((process pw P image mem0 exposure).progressLog.head? = some (some 0) ∧
      (process pw P image mem0 exposure).progressLog =
        (List.range (image.size_x * image.size_y + 1)).map
          (fun k : ℕ => (some ((k : ℚ) / (image.size_x * image.size_y : ℕ)) : FVal)) ∧
      (∀ k : ℕ, k < image.size_x * image.size_y →
        (((k + 1 : ℕ) : ℚ) / (image.size_x * image.size_y : ℕ) =
          (k : ℚ) / (image.size_x * image.size_y : ℕ) +
            1 / (image.size_x * image.size_y : ℕ)) ∧
        (k : ℚ) / (image.size_x * image.size_y : ℕ) ≤
          ((k + 1 : ℕ) : ℚ) / (image.size_x * image.size_y : ℕ)) ∧
      (process pw P image mem0 exposure).progress = some 1) ∧
    (∀ rnd : ℚ → FVal,
      (processR rnd pw P image mem0 exposure).progressLog.head? = some (some 0) ∧
      (processR rnd pw P image mem0 exposure).progressLog =
        (List.range (image.size_x * image.size_y + 1)).map
          (progressAfterR rnd (processDeltaR rnd image)) ∧
      (processR rnd pw P image mem0 exposure).progress =
        progressAfterR rnd (processDeltaR rnd image) (image.size_x * image.size_y) ∧
      ∀ k : ℕ, progressAfterR rnd (processDeltaR rnd image) (k + 1) =
        radd rnd (progressAfterR rnd (processDeltaR rnd image) k)
          (processDeltaR rnd image)) ∧
    (∀ (k : ℕ) (p p' : ℚ),
      progressAfterR round32 (processDeltaR round32 image) k = some p →
      progressAfterR round32 (processDeltaR round32 image) (k + 1) = some p' → p ≤ p') := by
  refine ⟨process_progress_exact pw P image mem0 exposure hN, ?_, ?_⟩
  · intro rnd
    obtain ⟨h1, h2⟩ := processR_progress rnd pw P image mem0 exposure
    rw [Nat.mul_comm image.size_y image.size_x] at h1 h2
    refine ⟨?_, h2, h1, fun _ => rfl⟩
    rw [h2, List.range_succ_eq_map]
    rfl
  · intro k p p' hp hp'
    exact progress32_mono image k p p' hp hp'

/-- Witness of C6: an image of two rows and two columns, in exact arithmetic. -/
theorem process_progress_rounded_witness :
    (process powQ defaultParams
      { size_x := 2, size_y := 2, ref := fun _ _ => { r := 1, g := 1, b := 1 } }
      (fun _ => none) 1).progress = some 1 :=
  (process_progress_rounded powQ defaultParams
    { size_x := 2, size_y := 2, ref := fun _ _ => { r := 1, g := 1, b := 1 } }
    (fun _ => none) 1 (by decide) (by decide)).1.2.2.2

/-- C13, amended: for every parameter set with `D ≠ 0`, `F ≠ 0` and `mapAux(W)`
finite and non-zero, in exact arithmetic `mapAux 0 = 0` and `map 0 = 0` for every
exposure, whatever `E` is, and with `Gamma > 0`, `graph 0 = 0` and `process`
writes the bytes `(0, 0, 0)` for a pixel whose three channels are `0`.  With
rounding, as in binary32, `mapAux 0` is the difference of the quotients
`(D * E) / (D * F)` and `E / F`, each rounded on its own, which need not be `0`. -/
theorem black_maps_to_black_rounded (P : Params) :
    (∀ cw : ℚ, P.D ≠ 0 → P.F ≠ 0 → mapAux P.W P.A P.B P.C P.D P.E P.F = some cw → cw ≠ 0 →
      mapAux 0 P.A P.B P.C P.D P.E P.F = some 0 ∧
      (∀ exposure : ℚ, map 0 exposure P.A P.B P.C P.D P.E P.F P.W = some 0) ∧
      (∀ pw : ℚ → ℚ → FVal, PowZero pw → 0 < P.gamma →
        graph pw P 0 = some 0 ∧
        ∀ (image : Image) (mem0 : ℕ → Option ℕ) (exposure : ℚ) (i j : ℕ),
          i < image.size_y → j < image.size_x →
          image.ref i j = { r := 0, g := 0, b := 0 } →
          (process pw P image mem0 exposure).mem (3 * (i * image.size_x + j) + 0) = some 0 ∧
          (process pw P image mem0 exposure).mem (3 * (i * image.size_x + j) + 1) = some 0 ∧
          (process pw P image mem0 exposure).mem (3 * (i * image.size_x + j) + 2) =
            some 0)) ∧
    (∀ (rnd : ℚ → FVal) (cb : ℚ), RndIdem rnd → rnd (P.C * P.B) = some cb →
      rnd P.B = some P.B →
      mapAuxR rnd (some 0) P.A P.B P.C P.D P.E P.F =
        rsub rnd (rdiv rnd (rmul rnd (some P.D) (some P.E)) (rmul rnd (some P.D) (some P.F)))
          (rdiv rnd (some P.E) (some P.F))) ∧
    (∀ cb : ℚ, round32 (P.C * P.B) = some cb → round32 P.B = some P.B →
      mapAuxR round32 (some 0) P.A P.B P.C P.D P.E P.F =
        rsub round32
          (rdiv round32 (rmul round32 (some P.D) (some P.E))
            (rmul round32 (some P.D) (some P.F)))
          (rdiv round32 (some P.E) (some P.F))) := by
  refine ⟨?_, ?_, ?_⟩
  · intro cw hD hF hW hcw
    exact black_maps_to_black_exact P cw hD hF hW hcw
  · intro rnd cb hidem hcb hB
    exact mapAuxR_at_zero rnd hidem P.A P.B P.C P.D P.E P.F cb hcb hB
  · intro cb hcb hB
    exact mapAuxR_at_zero round32 round32_idem P.A P.B P.C P.D P.E P.F cb hcb hB

/-- Witness of C13 in binary32 at the default parameters: `mapAux 0` is the
difference of the two rounded quotients. -/
theorem black_maps_to_black_rounded_witness :
    mapAuxR round32 (some 0) defaultParams32.A defaultParams32.B defaultParams32.C defaultParams32.D
      defaultParams32.E defaultParams32.F =
      rsub round32
        (rdiv round32 (rmul round32 (some defaultParams32.D) (some defaultParams32.E))
          (rmul round32 (some defaultParams32.D) (some defaultParams32.F)))
        (rdiv round32 (some defaultParams32.E) (some defaultParams32.F)) :=
  (black_maps_to_black_rounded defaultParams32).2.2 (1006633 / 33554432)
    (by decide!) (by decide!)

end Uncharted
